import Mathlib

set_option maxHeartbeats 1000000

/-! # Shallow embedding of the lightsout analysis-mode border solver

Definitions translated from the repository sources (src/core/gf4.js,
src/core/board.js, src/core/solver.js).  JavaScript in-place mutation of
the board is modelled by functional update of the cell function; BigInt
bitsets are modelled by Nat; the Map from packed coordinates to variable
indices is modelled by first-index lookup in the variable list. -/

/-- gf4.js: the four GF(4) elements encoded as 2-bit naturals. -/
def G0 : Nat := 0

def G1 : Nat := 1

def GOm : Nat := 2

def GOm2 : Nat := 3

/-- gf4.js: addition in GF(4) is XOR. -/
def gf4Add (a b : Nat) : Nat := a ^^^ b

/-- gf4.js: the 4x4 multiplication lookup table. -/
def MUL_TABLE : List (List Nat) :=
  [[0, 0, 0, 0], [0, 1, 2, 3], [0, 2, 3, 1], [0, 3, 1, 2]]

/-- gf4.js: multiplication in GF(4) by table lookup. -/
def gf4Mul (a b : Nat) : Nat := (MUL_TABLE.getD a []).getD b 0

/-- gf4.js: gf4Pow n computes omega to the n via ((n % 3) + 3) % 3.
JavaScript `%` is the truncated remainder, i.e. Int.tmod. -/
def gf4Pow (n : Int) : Nat :=
  match (n.tmod 3 + 3).tmod 3 with
  | 0 => G1
  | 1 => GOm
  | _ => GOm2

/-- board.js: the board state, restricted to the fields the solver reads
or writes.  The rows x cols grid of booleans is modelled as a total
function on coordinates; only coordinates below the bounds are ever
consulted by the embedded code. -/
structure Board where
  rows : Nat
  cols : Nat
  analysis : Bool
  cells : Nat → Nat → Bool

/-- board.js: GF(4) weighted row sum. -/
def Board.gf4RowSum (b : Board) (r : Nat) : Nat :=
  (List.range b.cols).foldl
    (fun sum c => if b.cells r c then gf4Add sum (gf4Pow (r + c)) else sum) G0

/-- board.js: GF(4) weighted column sum. -/
def Board.gf4ColSum (b : Board) (c : Nat) : Nat :=
  (List.range b.rows).foldl
    (fun sum r => if b.cells r c then gf4Add sum (gf4Pow (r + c)) else sum) G0

/-- solver.js bigintParity, fuel-indexed: popcount mod 2 by repeated
halving.  The fuel argument only serves structural recursion; `n` halves
at every step so `n` itself is always enough fuel. -/
def parityAux : Nat → Nat → Nat
  | 0, _ => 0
  | fuel + 1, n => if n = 0 then 0 else (n % 2) ^^^ parityAux fuel (n / 2)

/-- solver.js: popcount(n) mod 2. -/
def bigintParity (n : Nat) : Nat := parityAux n n

/-- solver.js: one GF(2) equation, a coefficient bitset plus a
right-hand-side bit. -/
structure Eqn where
  bits : Nat
  rhs : Nat
deriving DecidableEq

/-- Indexing into an equation list, with a zero default as JavaScript
array reads never go out of range in the embedded code. -/
def getEq (A : List Eqn) (r : Nat) : Eqn := A.getD r ⟨0, 0⟩

/-- solver.js solveGF2 pivot search: first row at position at least the
counter whose coefficient bit in the given column is set. -/
def findPivotAux (col : Nat) : List Eqn → Nat → Option Nat
  | [], _ => none
  | e :: rest, r => if e.bits.testBit col then some r else findPivotAux col rest (r + 1)

def findPivot (A : List Eqn) (col pivRow : Nat) : Option Nat :=
  findPivotAux col (A.drop pivRow) pivRow

/-- solver.js: the destructuring swap of two rows. -/
def listSwap (A : List Eqn) (i j : Nat) : List Eqn :=
  (A.set i (getEq A j)).set j (getEq A i)

/-- solver.js elimination loop body: XOR the pivot equation into every
other row whose bit in the pivot column is set.  The pivot row itself is
skipped, so reading it before the loop is faithful to the in-place code. -/
def elimRowsAux (piv : Eqn) (col pivRow : Nat) : List Eqn → Nat → List Eqn
  | [], _ => []
  | e :: rest, r =>
    (if r = pivRow then e
     else if e.bits.testBit col then ⟨e.bits ^^^ piv.bits, e.rhs ^^^ piv.rhs⟩ else e)
      :: elimRowsAux piv col pivRow rest (r + 1)

def elimRows (piv : Eqn) (col pivRow : Nat) (A : List Eqn) : List Eqn :=
  elimRowsAux piv col pivRow A 0

/-- State of the Gaussian elimination loop in solver.js solveGF2. -/
structure GState where
  A : List Eqn
  pivRow : Nat
  pivCols : List Nat

/-- One iteration of the column loop of solver.js solveGF2. -/
def elimStep (st : GState) (col : Nat) : GState :=
  match findPivot st.A col st.pivRow with
  | none => st
  | some p =>
    let A1 := listSwap st.A st.pivRow p
    let piv := getEq A1 st.pivRow
    { A := elimRows piv col st.pivRow A1
      pivRow := st.pivRow + 1
      pivCols := st.pivCols ++ [col] }

/-- The elimination loop over columns 0..n-1.  The JavaScript loop also
stops once pivRow reaches the row count, but from that point every
iteration finds no pivot and is the identity, so iterating over all
columns is equivalent. -/
def gaussN (eqs : List Eqn) (n : Nat) : GState :=
  (List.range n).foldl elimStep ⟨eqs, 0, []⟩

/-- solver.js: bits & ~(1n << col), clearing one bit of a bitset. -/
def clearBit (b : Nat) (col : Nat) : Nat :=
  if b.testBit col then b ^^^ (1 <<< col) else b

/-- solver.js back substitution: j steps of the downward loop, processing
pivot indices pivCols.length-1, ..., pivCols.length-j, accumulating both
the boolean solution array x and its bitset xBits. -/
def backSubSteps (A : List Eqn) (pivCols : List Nat) (nVars : Nat) : Nat → List Bool × Nat
  | 0 => (List.replicate nVars false, 0)
  | j + 1 =>
    let xp := backSubSteps A pivCols nVars j
    let i := pivCols.length - 1 - j
    let col := pivCols.getD i 0
    let e := getEq A i
    let s := bigintParity (clearBit e.bits col &&& xp.2)
    if e.rhs ^^^ s = 1 then (xp.1.set col true, xp.2 ||| (1 <<< col)) else xp

/-- solver.js solveGF2: Gaussian elimination to RREF over GF(2), an
inconsistency check, then back substitution; free variables stay false. -/
def solveGF2 (eqs : List Eqn) (nVars : Nat) : Option (List Bool) :=
  let st := gaussN eqs nVars
  if st.A.any (fun e => e.bits == 0 && e.rhs == 1) then none
  else some (backSubSteps st.A st.pivCols nVars st.pivCols.length).1

/-- solver.js fillOuterToZeroGF4 lines 13-20: the row-major enumeration
of the outer (border) cells. -/
def borderVars (rows cols : Nat) : List (Nat × Nat) :=
  (List.range rows).flatMap fun r =>
    ((List.range cols).filter fun c =>
        decide (r = 0 ∨ r = rows - 1 ∨ c = 0 ∨ c = cols - 1)).map
      fun c => (r, c)

/-- The idx Map of solver.js: position of a coordinate in the variable
list (the Map is keyed by r*cols+c, which is injective on the grid, so a
first-index lookup of the pair is equivalent). -/
def idxOfVarAux (r c : Nat) : List (Nat × Nat) → Nat → Option Nat
  | [], _ => none
  | p :: rest, i =>
    if p.1 = r ∧ p.2 = c then some i else idxOfVarAux r c rest (i + 1)

def idxOfVar (vars : List (Nat × Nat)) (r c : Nat) : Option Nat :=
  idxOfVarAux r c vars 0

/-- buildGF4ZeroSystem row loop, coefficient lookup for one cell: a
variable index if the cell is on the border and enumerated, else none. -/
def rowCoefIdx (rows cols : Nat) (vars : List (Nat × Nat)) (r c : Nat) : Option Nat :=
  if r = 0 ∨ r = rows - 1 ∨ c = 0 ∨ c = cols - 1 then idxOfVar vars r c else none

/-- buildGF4ZeroSystem: the coefficient bitset of the GF(2) equation for
row r, bit k. -/
def rowEqBits (rows cols : Nat) (vars : List (Nat × Nat)) (r k : Nat) : Nat :=
  (List.range cols).foldl
    (fun bs c =>
      match rowCoefIdx rows cols vars r c with
      | some i => if (gf4Pow (r + c)) >>> k &&& 1 = 1 then bs ||| (1 <<< i) else bs
      | none => bs) 0

/-- buildGF4ZeroSystem: the coefficient bitset of the GF(2) equation for
column c, bit k (the border condition tested in the column loop is the
same full-border predicate). -/
def colEqBits (rows cols : Nat) (vars : List (Nat × Nat)) (c k : Nat) : Nat :=
  (List.range rows).foldl
    (fun bs r =>
      match rowCoefIdx rows cols vars r c with
      | some i => if (gf4Pow (r + c)) >>> k &&& 1 = 1 then bs ||| (1 <<< i) else bs
      | none => bs) 0

/-- solver.js buildGF4ZeroSystem: two GF(2) equations per row then two
per column, in loop order. -/
def buildGF4ZeroSystem (rows cols : Nat) (vars : List (Nat × Nat))
    (internalRow internalCol : List Nat) : List Eqn :=
  ((List.range rows).flatMap fun r =>
    (List.range 2).map fun k =>
      ⟨rowEqBits rows cols vars r k, internalRow.getD r 0 >>> k &&& 1⟩)
  ++ ((List.range cols).flatMap fun c =>
    (List.range 2).map fun k =>
      ⟨colEqBits rows cols vars c k, internalCol.getD c 0 >>> k &&& 1⟩)

/-- Functional update of one cell, modelling board.cells[r][c] = v. -/
def setCell (f : Nat → Nat → Bool) (r c : Nat) (v : Bool) : Nat → Nat → Bool :=
  fun r' c' => if r' = r ∧ c' = c then v else f r' c'

/-- A sequence of cell writes, modelling the forEach loops of
fillOuterToZeroGF4. -/
def writeCells (f : Nat → Nat → Bool) : List ((Nat × Nat) × Bool) → Nat → Nat → Bool
  | [] => f
  | (p, v) :: rest => writeCells (setCell f p.1 p.2 v) rest

/-- fillOuterToZeroGF4: the border variable list of a board. -/
def fillVars (b : Board) : List (Nat × Nat) := borderVars b.rows b.cols

/-- fillOuterToZeroGF4: snapshot of the current border cell values. -/
def fillSnapshot (b : Board) : List Bool :=
  (fillVars b).map fun p => b.cells p.1 p.2

/-- fillOuterToZeroGF4: the board with every border cell set to false. -/
def zeroBorderCells (b : Board) : Board :=
  { b with cells := writeCells b.cells ((fillVars b).map fun p => (p, false)) }

/-- fillOuterToZeroGF4: residual row sums of the border-zeroed board. -/
def fillInternalRow (b : Board) : List Nat :=
  (List.range b.rows).map fun r => (zeroBorderCells b).gf4RowSum r

/-- fillOuterToZeroGF4: residual column sums of the border-zeroed board. -/
def fillInternalCol (b : Board) : List Nat :=
  (List.range b.cols).map fun c => (zeroBorderCells b).gf4ColSum c

/-- fillOuterToZeroGF4: the GF(2) system handed to solveGF2. -/
def fillEqs (b : Board) : List Eqn :=
  buildGF4ZeroSystem b.rows b.cols (fillVars b) (fillInternalRow b) (fillInternalCol b)

/-- solver.js fillOuterToZeroGF4: set the border cells so that every
GF(4) row and column sum becomes zero; restore the snapshot if the GF(2)
system is inconsistent; no-op on non-analysis or too-small boards. -/
def fillOuterToZeroGF4 (b : Board) : Board :=
  if b.analysis = false ∨ b.rows < 3 ∨ b.cols < 3 then b
  else if (fillVars b).length = 0 then b
  else
    match solveGF2 (fillEqs b) (fillVars b).length with
    | none =>
      { b with cells := writeCells (zeroBorderCells b).cells ((fillVars b).zip (fillSnapshot b)) }
    | some sol =>
      { b with cells := writeCells (zeroBorderCells b).cells ((fillVars b).zip sol) }

/-! ## Arithmetic groundwork: parity and bit lemmas -/

theorem parityAux_zero (fuel : Nat) : parityAux fuel 0 = 0 := by
  cases fuel <;> simp [parityAux]

theorem parityAux_congr (n : Nat) : ∀ f₁ f₂ : Nat, n ≤ f₁ → n ≤ f₂ →
    parityAux f₁ n = parityAux f₂ n := by
  induction n using Nat.strong_induction_on with
  | _ n ih =>
    intro f₁ f₂ h₁ h₂
    rcases Nat.eq_zero_or_pos n with hn | hn
    · subst hn; rw [parityAux_zero, parityAux_zero]
    · obtain ⟨g₁, rfl⟩ : ∃ g, f₁ = g + 1 := ⟨f₁ - 1, by omega⟩
      obtain ⟨g₂, rfl⟩ : ∃ g, f₂ = g + 1 := ⟨f₂ - 1, by omega⟩
      have hd : n / 2 < n := Nat.div_lt_self hn (by omega)
      simp only [parityAux, if_neg (Nat.pos_iff_ne_zero.mp hn)]
      rw [ih (n / 2) hd g₁ g₂ (by omega) (by omega)]

theorem bigintParity_def (n : Nat) :
    bigintParity n = if n = 0 then 0 else (n % 2) ^^^ bigintParity (n / 2) := by
  rcases Nat.eq_zero_or_pos n with hn | hn
  · subst hn; simp [bigintParity, parityAux_zero]
  · obtain ⟨m, rfl⟩ : ∃ m, n = m + 1 := ⟨n - 1, by omega⟩
    simp only [bigintParity, parityAux, if_neg (Nat.pos_iff_ne_zero.mp hn)]
    rw [parityAux_congr ((m + 1) / 2) m ((m + 1) / 2) (by omega) (by omega)]

theorem bigintParity_zero : bigintParity 0 = 0 := rfl

theorem bigintParity_lt_two (n : Nat) : bigintParity n < 2 := by
  induction n using Nat.strong_induction_on with
  | _ n ih =>
    rw [bigintParity_def]
    rcases Nat.eq_zero_or_pos n with hn | hn
    · simp [hn]
    · rw [if_neg (Nat.pos_iff_ne_zero.mp hn)]
      have h1 : n % 2 < 2 := Nat.mod_lt n (by omega)
      have h2 : bigintParity (n / 2) < 2 := ih (n / 2) (Nat.div_lt_self hn (by omega))
      have := Nat.xor_lt_two_pow (n := 1) (x := n % 2) (y := bigintParity (n / 2))
      simpa using this (by simpa using h1) (by simpa using h2)

theorem xor_mod_two (a b : Nat) : (a ^^^ b) % 2 = (a % 2) ^^^ (b % 2) := by
  have h := Nat.testBit_xor a b 0
  simp only [Nat.testBit_zero] at h
  have hx : (a ^^^ b) % 2 < 2 := Nat.mod_lt _ (by omega)
  rcases Nat.mod_two_eq_zero_or_one a with ha | ha <;>
    rcases Nat.mod_two_eq_zero_or_one b with hb | hb <;>
      simp [ha, hb] at h ⊢ <;> omega

theorem xor_div_two (a b : Nat) : (a ^^^ b) / 2 = (a / 2) ^^^ (b / 2) := by
  apply Nat.eq_of_testBit_eq
  intro i
  have h1 := Nat.testBit_succ (a ^^^ b) i
  have h2 := Nat.testBit_succ a i
  have h3 := Nat.testBit_succ b i
  rw [Nat.testBit_xor] at h1
  rw [Nat.testBit_xor, ← h1, h2, h3]

theorem bigintParity_xor (a b : Nat) :
    bigintParity (a ^^^ b) = bigintParity a ^^^ bigintParity b := by
  induction a using Nat.strong_induction_on generalizing b with
  | _ a ih =>
    rcases Nat.eq_zero_or_pos a with ha | ha
    · subst ha; simp [bigintParity_zero, Nat.zero_xor]
    rcases Nat.eq_zero_or_pos b with hb | hb
    · subst hb; simp [bigintParity_zero, Nat.xor_zero]
    rcases Nat.eq_zero_or_pos (a ^^^ b) with hab | hab
    · rw [hab, Nat.xor_eq_zero.mp hab, bigintParity_zero, Nat.xor_self]
    rw [bigintParity_def (a ^^^ b), if_neg (Nat.pos_iff_ne_zero.mp hab),
      bigintParity_def a, if_neg (Nat.pos_iff_ne_zero.mp ha),
      bigintParity_def b, if_neg (Nat.pos_iff_ne_zero.mp hb),
      xor_mod_two, xor_div_two, ih (a / 2) (Nat.div_lt_self ha (by omega)) (b / 2)]
    rw [Nat.xor_assoc, Nat.xor_assoc]
    congr 1
    rw [← Nat.xor_assoc, ← Nat.xor_assoc, Nat.xor_comm (bigintParity (a / 2)) (b % 2)]

theorem bigintParity_two_pow (i : Nat) : bigintParity (2 ^ i) = 1 := by
  induction i with
  | zero => rfl
  | succ i ih =>
    have h1 : (2 : Nat) ^ (i + 1) ≠ 0 := by positivity
    have h2 : 2 ^ (i + 1) % 2 = 0 := by rw [Nat.pow_succ]; omega
    have h3 : 2 ^ (i + 1) / 2 = 2 ^ i := by rw [Nat.pow_succ]; omega
    rw [bigintParity_def, if_neg h1, h2, h3, ih]
    rfl

theorem and_two_pow_eq (x i : Nat) :
    x &&& 2 ^ i = if x.testBit i then 2 ^ i else 0 := by
  apply Nat.eq_of_testBit_eq
  intro j
  rw [Nat.testBit_and, Nat.testBit_two_pow]
  by_cases hij : i = j
  · subst hij
    by_cases hx : x.testBit i <;> simp [hx, Nat.testBit_two_pow]
  · by_cases hx : x.testBit i <;> simp [hx, hij, Nat.testBit_two_pow, Nat.zero_testBit]

theorem two_pow_and_eq (x i : Nat) :
    2 ^ i &&& x = if x.testBit i then 2 ^ i else 0 := by
  rw [Nat.and_comm]; exact and_two_pow_eq x i

theorem or_two_pow_of_not_testBit (bs i : Nat) (h : bs.testBit i = false) :
    bs ||| 2 ^ i = bs ^^^ 2 ^ i := by
  apply Nat.eq_of_testBit_eq
  intro j
  rw [Nat.testBit_or, Nat.testBit_xor, Nat.testBit_two_pow]
  by_cases hij : i = j
  · subst hij; simp [h]
  · simp [hij]

theorem lt_two_pow_of_high_bits_false (n w : Nat)
    (h : ∀ t, w ≤ t → n.testBit t = false) : n < 2 ^ w := by
  have hz : n >>> w = 0 := by
    apply Nat.eq_of_testBit_eq
    intro j
    rw [Nat.testBit_shiftRight, Nat.zero_testBit]
    exact h (w + j) (by omega)
  rw [Nat.shiftRight_eq_div_pow] at hz
  exact (Nat.div_eq_zero_iff (by positivity)).mp hz

theorem testBit_false_of_lt_two_pow (n w t : Nat) (hn : n < 2 ^ w) (ht : w ≤ t) :
    n.testBit t = false :=
  Nat.testBit_lt_two_pow (Nat.lt_of_lt_of_le hn (Nat.pow_le_pow_right (by omega) ht))

theorem shift_and_one_eq_testBit (w k : Nat) :
    (w >>> k &&& 1 = 1) ↔ w.testBit k = true := by
  rw [Nat.and_one_is_mod, Nat.shiftRight_eq_div_pow, Nat.testBit_to_div_mod]
  simp

theorem bigintParity_and_or_two_pow (bs X i : Nat) (h : bs.testBit i = false) :
    bigintParity ((bs ||| 2 ^ i) &&& X)
      = bigintParity (bs &&& X) ^^^ (if X.testBit i then 1 else 0) := by
  rw [or_two_pow_of_not_testBit bs i h, Nat.and_xor_distrib_right, bigintParity_xor,
    two_pow_and_eq]
  by_cases hx : X.testBit i
  · simp [hx, bigintParity_two_pow]
  · simp [hx, bigintParity_zero]

/-! ## gf4Pow: exponent reduction (claim C9) -/

theorem tmod3_shift_eq_emod (n : Int) : (n.tmod 3 + 3).tmod 3 = n % 3 := by
  cases n with
  | ofNat m =>
    have h1 : (Int.ofNat m).tmod 3 = ((m % 3 : Nat) : Int) := rfl
    have hb : m % 3 < 3 := Nat.mod_lt m (by omega)
    have h2 : (Int.ofNat m) % 3 = ((m % 3 : Nat) : Int) := by
      rw [Int.ofNat_eq_coe]
      exact (Int.ofNat_emod m 3).symm
    rw [h1, Int.tmod_eq_emod (by omega) (by omega), h2]
    omega
  | negSucc m =>
    have h1 : (Int.negSucc m).tmod 3 = -(((m + 1) % 3 : Nat) : Int) := rfl
    have hb : (m + 1) % 3 < 3 := Nat.mod_lt _ (by omega)
    have hneg : Int.negSucc m = -((m + 1 : Nat) : Int) := by
      simp [Int.negSucc_eq]
    rw [h1, Int.tmod_eq_emod (by omega) (by omega), hneg]
    omega

theorem gf4Pow_emod_form (n : Int) :
    gf4Pow n = if n % 3 = 0 then G1 else if n % 3 = 1 then GOm else GOm2 := by
  unfold gf4Pow
  rw [tmod3_shift_eq_emod]
  have h0 : 0 ≤ n % 3 := Int.emod_nonneg n (by omega)
  have h3 : n % 3 < 3 := Int.emod_lt_of_pos n (by omega)
  have : n % 3 = 0 ∨ n % 3 = 1 ∨ n % 3 = 2 := by omega
  rcases this with h | h | h <;> rw [h] <;> rfl

/-- C9: gf4Pow sends 0, 1, 2 to 1, omega, omega squared, is invariant
under shifting the exponent by 3 (for every integer, in particular every
non-negative one), and always reduces its exponent into {0, 1, 2}:
gf4Pow n equals gf4Pow of ((n mod 3) + 3) mod 3, a value in {0, 1, 2},
for every integer n including negatives. -/
theorem gf4Pow_cycle :
    gf4Pow 0 = 1 ∧ gf4Pow 1 = GOm ∧ gf4Pow 2 = GOm2
      ∧ (∀ n : Int, gf4Pow n = gf4Pow (n + 3))
      ∧ (∀ n : Int, gf4Pow n = gf4Pow ((n % 3 + 3) % 3))
      ∧ (∀ n : Int, 0 ≤ (n % 3 + 3) % 3 ∧ (n % 3 + 3) % 3 < 3) := by
  refine ⟨by decide, by decide, by decide, ?_, ?_, ?_⟩
  · intro n
    have h : (n + 3) % 3 = n % 3 := by omega
    rw [gf4Pow_emod_form, gf4Pow_emod_form, h]
  · intro n
    have h1 : (n % 3 + 3) % 3 = n % 3 := by omega
    have h2 : n % 3 % 3 = n % 3 := by omega
    rw [gf4Pow_emod_form n, gf4Pow_emod_form, h1, h2]
  · intro n
    constructor
    · exact Int.emod_nonneg _ (by omega)
    · exact Int.emod_lt_of_pos _ (by omega)

/-! ## Generic list indexing helpers -/

theorem getD_set_self {α : Type} (l : List α) (i : Nat) (a d : α) (h : i < l.length) :
    (l.set i a).getD i d = a := by
  rw [List.getD_eq_getElem _ _ (by simpa using h)]
  exact List.getElem_set_self _

theorem getD_set_ne {α : Type} (l : List α) (i r : Nat) (a d : α) (h : r ≠ i) :
    (l.set i a).getD r d = l.getD r d := by
  by_cases hr : r < l.length
  · rw [List.getD_eq_getElem _ _ (by simpa using hr), List.getD_eq_getElem _ _ hr]
    exact List.getElem_set_ne (fun he => h he.symm) _
  · rw [List.getD_eq_default _ _ (by simpa using Nat.le_of_not_lt hr),
      List.getD_eq_default _ _ (Nat.le_of_not_lt hr)]

theorem getD_map_fn {α β : Type} (f : α → β) (l : List α) (i : Nat) (d : α) (d' : β)
    (h : i < l.length) : (l.map f).getD i d' = f (l.getD i d) := by
  rw [List.getD_eq_getElem _ _ (by simpa using h), List.getD_eq_getElem _ _ h]
  exact List.getElem_map f

theorem getD_mem_of_lt {α : Type} (l : List α) (i : Nat) (d : α) (h : i < l.length) :
    l.getD i d ∈ l := by
  rw [List.getD_eq_getElem _ _ h]
  exact List.getElem_mem h

/-! ## writeCells: localisation of the border writes -/

theorem writeCells_not_mem (f : Nat → Nat → Bool) (l : List ((Nat × Nat) × Bool))
    (r c : Nat) (h : ∀ pv ∈ l, pv.1 ≠ (r, c)) : writeCells f l r c = f r c := by
  induction l generalizing f with
  | nil => rfl
  | cons pv rest ih =>
    obtain ⟨p, v⟩ := pv
    rw [writeCells, ih _ fun q hq => h q (List.mem_cons_of_mem _ hq)]
    have hp : p ≠ (r, c) := h (p, v) (List.mem_cons_self _ _)
    unfold setCell
    rw [if_neg]
    rintro ⟨h1, h2⟩
    exact hp (by cases p; simp_all)

theorem writeCells_mem (f : Nat → Nat → Bool) (l : List ((Nat × Nat) × Bool))
    (r c : Nat) (v : Bool) (hmem : ((r, c), v) ∈ l) (hnd : (l.map Prod.fst).Nodup) :
    writeCells f l r c = v := by
  induction l generalizing f with
  | nil => simp at hmem
  | cons pv rest ih =>
    obtain ⟨p, w⟩ := pv
    rcases List.mem_cons.mp hmem with he | hm
    · obtain ⟨hp, hw⟩ : p = (r, c) ∧ w = v := by
        constructor <;> injection he <;> simp_all
      subst hp; subst hw
      rw [writeCells]
      rw [writeCells_not_mem]
      · unfold setCell; simp
      · intro q hq he'
        have : (r, c) ∈ rest.map Prod.fst := by
          rw [← he']; exact List.mem_map_of_mem Prod.fst hq
        simp only [List.map_cons, List.nodup_cons] at hnd
        exact hnd.1 this
    · rw [writeCells]
      exact ih _ hm (by simp only [List.map_cons, List.nodup_cons] at hnd; exact hnd.2)

/-! ## idxOfVar: the first-index lookup -/

theorem idxOfVarAux_some (r c : Nat) (l : List (Nat × Nat)) (s i : Nat)
    (h : idxOfVarAux r c l s = some i) :
    s ≤ i ∧ i - s < l.length ∧ l.getD (i - s) (0, 0) = (r, c) := by
  induction l generalizing s with
  | nil => simp [idxOfVarAux] at h
  | cons p rest ih =>
    rw [idxOfVarAux] at h
    by_cases hp : p.1 = r ∧ p.2 = c
    · rw [if_pos hp] at h
      obtain rfl : s = i := by injection h
      refine ⟨Nat.le_refl _, by simp, ?_⟩
      simp only [Nat.sub_self]
      cases p; simp_all
    · rw [if_neg hp] at h
      obtain ⟨h1, h2, h3⟩ := ih (s + 1) h
      refine ⟨by omega, by simp; omega, ?_⟩
      have : i - s = (i - (s + 1)) + 1 := by omega
      rw [this]
      simpa using h3

theorem idxOfVarAux_complete (r c : Nat) (l : List (Nat × Nat)) (s j : Nat)
    (hnd : l.Nodup) (hj : j < l.length) (hg : l.getD j (0, 0) = (r, c)) :
    idxOfVarAux r c l s = some (s + j) := by
  induction l generalizing s j with
  | nil => simp at hj
  | cons p rest ih =>
    rw [idxOfVarAux]
    cases j with
    | zero =>
      have hp : p = (r, c) := by simpa using hg
      rw [if_pos (by cases p; simp_all)]
      simp
    | succ j' =>
      have hg' : rest.getD j' (0, 0) = (r, c) := by simpa using hg
      have hj' : j' < rest.length := by simp at hj; omega
      have hmem : (r, c) ∈ rest := hg' ▸ getD_mem_of_lt rest j' (0, 0) hj'
      have hp : ¬(p.1 = r ∧ p.2 = c) := by
        rintro ⟨h1, h2⟩
        have : p = (r, c) := by cases p; simp_all
        rw [List.nodup_cons] at hnd
        exact hnd.1 (this ▸ hmem)
      rw [if_neg hp, ih (s + 1) j' (List.nodup_cons.mp hnd).2 hj' hg']
      congr 1
      omega

theorem idxOfVarAux_none (r c : Nat) (l : List (Nat × Nat)) (s : Nat) :
    idxOfVarAux r c l s = none ↔ (r, c) ∉ l := by
  induction l generalizing s with
  | nil => simp [idxOfVarAux]
  | cons p rest ih =>
    rw [idxOfVarAux]
    by_cases hp : p.1 = r ∧ p.2 = c
    · rw [if_pos hp]
      have : p = (r, c) := by cases p; simp_all
      simp [this]
    · rw [if_neg hp, ih (s + 1)]
      have h2 : (r, c) ≠ p := by
        intro he
        exact hp (by cases p; simp_all)
      simp [List.mem_cons, h2]

theorem idxOfVar_some_lt (vars : List (Nat × Nat)) (r c i : Nat)
    (h : idxOfVar vars r c = some i) : i < vars.length ∧ vars.getD i (0, 0) = (r, c) := by
  obtain ⟨h1, h2, h3⟩ := idxOfVarAux_some r c vars 0 i h
  rw [Nat.sub_zero] at h2 h3
  exact ⟨h2, h3⟩

theorem idxOfVar_some_iff (vars : List (Nat × Nat)) (r c i : Nat) (hnd : vars.Nodup) :
    idxOfVar vars r c = some i ↔ i < vars.length ∧ vars.getD i (0, 0) = (r, c) := by
  constructor
  · exact idxOfVar_some_lt vars r c i
  · rintro ⟨h1, h2⟩
    have := idxOfVarAux_complete r c vars 0 i hnd h1 h2
    rwa [Nat.zero_add] at this

theorem idxOfVar_none_iff (vars : List (Nat × Nat)) (r c : Nat) :
    idxOfVar vars r c = none ↔ (r, c) ∉ vars :=
  idxOfVarAux_none r c vars 0

/-! ## borderVars: membership, ordering, nodup -/

theorem mem_borderVars (rows cols r c : Nat) :
    (r, c) ∈ borderVars rows cols ↔
      r < rows ∧ c < cols ∧ (r = 0 ∨ r = rows - 1 ∨ c = 0 ∨ c = cols - 1) := by
  simp only [borderVars, List.mem_flatMap, List.mem_map, List.mem_filter, List.mem_range]
  constructor
  · rintro ⟨a, ha, c', ⟨⟨hc', hcond⟩, he⟩⟩
    obtain ⟨rfl, rfl⟩ : a = r ∧ c' = c := by
      refine ⟨?_, ?_⟩ <;> injection he
    exact ⟨ha, hc', by simpa using hcond⟩
  · rintro ⟨hr, hc, hcond⟩
    exact ⟨r, hr, c, ⟨⟨hc, by simpa using hcond⟩, rfl⟩⟩

theorem borderVars_pairwise_key (rows cols : Nat) :
    List.Pairwise (fun p q : Nat × Nat => p.1 * cols + p.2 < q.1 * cols + q.2)
      (borderVars rows cols) := by
  rw [borderVars, List.flatMap_def, List.pairwise_flatten]
  constructor
  · intro l hl
    simp only [List.mem_map] at hl
    obtain ⟨a, _, rfl⟩ := hl
    rw [List.pairwise_map]
    refine ((List.pairwise_lt_range cols).filter _).imp ?_
    intro c1 c2 h
    show a * cols + c1 < a * cols + c2
    omega
  · rw [List.pairwise_map]
    refine (List.pairwise_lt_range rows).imp ?_
    intro a b hab
    intro x hx y hy
    simp only [List.mem_map, List.mem_filter, List.mem_range] at hx hy
    obtain ⟨cx, ⟨hcx, _⟩, rfl⟩ := hx
    obtain ⟨cy, ⟨hcy, _⟩, rfl⟩ := hy
    show a * cols + cx < b * cols + cy
    have h1 : a * cols + cx < (a + 1) * cols := by
      simp only [Nat.add_mul, Nat.one_mul]
      omega
    have h2 : (a + 1) * cols ≤ b * cols := Nat.mul_le_mul_right cols (by omega)
    omega

theorem borderVars_nodup (rows cols : Nat) : (borderVars rows cols).Nodup :=
  (borderVars_pairwise_key rows cols).imp fun h he => by subst he; omega

/-! ## fill plumbing: where the writes land -/

theorem mem_fillVars (b : Board) (r c : Nat) :
    (r, c) ∈ fillVars b ↔
      r < b.rows ∧ c < b.cols ∧ (r = 0 ∨ r = b.rows - 1 ∨ c = 0 ∨ c = b.cols - 1) :=
  mem_borderVars b.rows b.cols r c

theorem fillVars_nodup (b : Board) : (fillVars b).Nodup := borderVars_nodup _ _

theorem zeroBorderCells_cells (b : Board) (r c : Nat) :
    (zeroBorderCells b).cells r c = if (r, c) ∈ fillVars b then false else b.cells r c := by
  show writeCells b.cells ((fillVars b).map fun p => (p, false)) r c = _
  by_cases h : (r, c) ∈ fillVars b
  · rw [if_pos h]
    apply writeCells_mem
    · exact List.mem_map_of_mem _ h
    · have he : ((fillVars b).map fun p : Nat × Nat => (p, false)).map Prod.fst
          = fillVars b := by
        rw [List.map_map]
        show List.map (fun p : Nat × Nat => p) (fillVars b) = fillVars b
        exact List.map_id _
      rw [he]
      exact fillVars_nodup b
  · rw [if_neg h]
    apply writeCells_not_mem
    intro pv hpv
    simp only [List.mem_map] at hpv
    obtain ⟨p, hp, rfl⟩ := hpv
    intro he
    exact h (he ▸ hp)

theorem zip_map_fst_sublist {α β : Type} : ∀ (l : List α) (l' : List β),
    ((l.zip l').map Prod.fst).Sublist l
  | [], _ => by simp
  | _ :: _, [] => by simp
  | a :: l, b :: l' => by
    simp only [List.zip_cons_cons, List.map_cons]
    exact (zip_map_fst_sublist l l').cons₂ a

theorem writeCells_zip_not_mem (f : Nat → Nat → Bool) (vars : List (Nat × Nat))
    (vals : List Bool) (r c : Nat) (h : (r, c) ∉ vars) :
    writeCells f (vars.zip vals) r c = f r c := by
  apply writeCells_not_mem
  intro pv hpv he
  obtain ⟨p, v⟩ := pv
  exact h (he ▸ (List.of_mem_zip hpv).1)

theorem writeCells_zip_getD (f : Nat → Nat → Bool) (vars : List (Nat × Nat))
    (vals : List Bool) (i r c : Nat) (hnd : vars.Nodup) (hi : i < vars.length)
    (hiv : i < vals.length) (hg : vars.getD i (0, 0) = (r, c)) :
    writeCells f (vars.zip vals) r c = vals.getD i false := by
  apply writeCells_mem
  · rw [List.mem_iff_getElem]
    refine ⟨i, by rw [List.length_zip]; omega, ?_⟩
    rw [List.getElem_zip, List.getD_eq_getElem _ _ hi] at *
    rw [List.getD_eq_getElem _ _ hiv]
    rw [hg]
  · exact (zip_map_fst_sublist vars vals).nodup hnd

theorem fill_eq_of_guard (b : Board)
    (h : b.analysis = false ∨ b.rows < 3 ∨ b.cols < 3) : fillOuterToZeroGF4 b = b := by
  unfold fillOuterToZeroGF4
  rw [if_pos h]

theorem fillVars_length_pos (b : Board) (hr : 3 ≤ b.rows) (hc : 3 ≤ b.cols) :
    0 < (fillVars b).length :=
  List.length_pos_of_mem ((mem_fillVars b 0 0).mpr ⟨by omega, by omega, Or.inl rfl⟩)

theorem fill_guard_neg (b : Board) (ha : b.analysis = true) (hr : 3 ≤ b.rows)
    (hc : 3 ≤ b.cols) : ¬(b.analysis = false ∨ b.rows < 3 ∨ b.cols < 3) := by
  simp [ha]
  omega

theorem fill_eq_restore (b : Board) (ha : b.analysis = true) (hr : 3 ≤ b.rows)
    (hc : 3 ≤ b.cols) (hn : solveGF2 (fillEqs b) (fillVars b).length = none) :
    fillOuterToZeroGF4 b =
      { b with
        cells := writeCells (zeroBorderCells b).cells ((fillVars b).zip (fillSnapshot b)) } := by
  unfold fillOuterToZeroGF4
  rw [if_neg (fill_guard_neg b ha hr hc),
    if_neg (Nat.pos_iff_ne_zero.mp (fillVars_length_pos b hr hc)), hn]

theorem fill_eq_write (b : Board) (ha : b.analysis = true) (hr : 3 ≤ b.rows)
    (hc : 3 ≤ b.cols) (sol : List Bool)
    (hs : solveGF2 (fillEqs b) (fillVars b).length = some sol) :
    fillOuterToZeroGF4 b =
      { b with cells := writeCells (zeroBorderCells b).cells ((fillVars b).zip sol) } := by
  unfold fillOuterToZeroGF4
  rw [if_neg (fill_guard_neg b ha hr hc),
    if_neg (Nat.pos_iff_ne_zero.mp (fillVars_length_pos b hr hc)), hs]

theorem fill_restore_eq (b : Board) (ha : b.analysis = true) (hr : 3 ≤ b.rows)
    (hc : 3 ≤ b.cols) (hn : solveGF2 (fillEqs b) (fillVars b).length = none) :
    fillOuterToZeroGF4 b = b := by
  rw [fill_eq_restore b ha hr hc hn]
  have hcells : writeCells (zeroBorderCells b).cells ((fillVars b).zip (fillSnapshot b))
      = b.cells := by
    funext r c
    by_cases hm : (r, c) ∈ fillVars b
    · obtain ⟨i, hi, hg⟩ := List.mem_iff_getElem.mp hm
      have hg' : (fillVars b).getD i (0, 0) = (r, c) := by
        rw [List.getD_eq_getElem _ _ hi, hg]
      have hlen : (fillSnapshot b).length = (fillVars b).length := by
        simp [fillSnapshot]
      rw [writeCells_zip_getD _ _ _ i r c (fillVars_nodup b) hi (by omega) hg']
      show ((fillVars b).map fun p => b.cells p.1 p.2).getD i false = _
      rw [getD_map_fn _ _ i (0, 0) false hi, hg']
    · rw [writeCells_zip_not_mem _ _ _ _ _ hm, zeroBorderCells_cells, if_neg hm]
  rw [hcells]

/-! ## Frame facts about fillOuterToZeroGF4 -/

theorem fill_rows (b : Board) : (fillOuterToZeroGF4 b).rows = b.rows := by
  unfold fillOuterToZeroGF4
  split
  · rfl
  split
  · rfl
  split <;> rfl

theorem fill_cols (b : Board) : (fillOuterToZeroGF4 b).cols = b.cols := by
  unfold fillOuterToZeroGF4
  split
  · rfl
  split
  · rfl
  split <;> rfl

theorem fill_analysis (b : Board) : (fillOuterToZeroGF4 b).analysis = b.analysis := by
  unfold fillOuterToZeroGF4
  split
  · rfl
  split
  · rfl
  split <;> rfl

theorem fill_cells_not_var (b : Board) (r c : Nat) (h : (r, c) ∉ fillVars b) :
    (fillOuterToZeroGF4 b).cells r c = b.cells r c := by
  unfold fillOuterToZeroGF4
  split
  · rfl
  split
  · rfl
  split
  · show writeCells (zeroBorderCells b).cells ((fillVars b).zip (fillSnapshot b)) r c = _
    rw [writeCells_zip_not_mem _ _ _ _ _ h, zeroBorderCells_cells, if_neg h]
  · show writeCells (zeroBorderCells b).cells ((fillVars b).zip _) r c = _
    rw [writeCells_zip_not_mem _ _ _ _ _ h, zeroBorderCells_cells, if_neg h]

/-- C8: fillOuterToZeroGF4 mutates only border cells: the board's rows,
cols and analysis flag are unchanged, and every cell whose coordinates
satisfy none of r = 0, r = rows-1, c = 0, c = cols-1 keeps its value, on
every control path (guard, failure and success). -/
theorem fill_frame (b : Board) :
    (fillOuterToZeroGF4 b).rows = b.rows ∧ (fillOuterToZeroGF4 b).cols = b.cols
      ∧ (fillOuterToZeroGF4 b).analysis = b.analysis
      ∧ ∀ r c, r ≠ 0 → r ≠ b.rows - 1 → c ≠ 0 → c ≠ b.cols - 1 →
          (fillOuterToZeroGF4 b).cells r c = b.cells r c := by
  refine ⟨fill_rows b, fill_cols b, fill_analysis b, ?_⟩
  intro r c h1 h2 h3 h4
  apply fill_cells_not_var
  intro hm
  rcases ((mem_fillVars b r c).mp hm).2.2 with h | h | h | h
  · exact h1 h
  · exact h2 h
  · exact h3 h
  · exact h4 h

theorem fill_frame_witness :
    (2 ≠ 0) ∧ (2 ≠ (Board.mk 4 4 true fun r c => r == 1 && c == 1).rows - 1)
      ∧ (2 ≠ 0) ∧ (2 ≠ (Board.mk 4 4 true fun r c => r == 1 && c == 1).cols - 1)
      ∧ (fillOuterToZeroGF4 (Board.mk 4 4 true fun r c => r == 1 && c == 1)).cells 2 2
          = (Board.mk 4 4 true fun r c => r == 1 && c == 1).cells 2 2 :=
  ⟨by decide, by decide, by decide, by decide,
    (fill_frame (Board.mk 4 4 true fun r c => r == 1 && c == 1)).2.2.2 2 2
      (by decide) (by decide) (by decide) (by decide)⟩

/-- C7: on a board that is not in analysis form, or with fewer than 3
rows or fewer than 3 columns, fillOuterToZeroGF4 returns the board
unchanged and without error. -/
theorem fill_noop_small (b : Board)
    (h : b.analysis = false ∨ b.rows < 3 ∨ b.cols < 3) :
    fillOuterToZeroGF4 b = b :=
  fill_eq_of_guard b h

theorem fill_noop_small_witness :
    ((Board.mk 2 5 true fun _ _ => true).analysis = false
        ∨ (Board.mk 2 5 true fun _ _ => true).rows < 3
        ∨ (Board.mk 2 5 true fun _ _ => true).cols < 3)
      ∧ fillOuterToZeroGF4 (Board.mk 2 5 true fun _ _ => true)
          = Board.mk 2 5 true fun _ _ => true :=
  ⟨Or.inr (Or.inl (by decide)),
    fill_noop_small (Board.mk 2 5 true fun _ _ => true) (Or.inr (Or.inl (by decide)))⟩

/-- C3: on an analysis board with at least 3 rows and 3 columns, if the
internal GF(2) solve is inconsistent (returns none), fillOuterToZeroGF4
restores the snapshotted border values, leaving every cell of the board
exactly equal to its value before the call, and returns normally. -/
theorem fill_restore_on_failure (b : Board) (ha : b.analysis = true)
    (hr : 3 ≤ b.rows) (hc : 3 ≤ b.cols)
    (hn : solveGF2 (fillEqs b) (fillVars b).length = none) :
    fillOuterToZeroGF4 b = b :=
  fill_restore_eq b ha hr hc hn

theorem fill_restore_on_failure_witness :
    (Board.mk 4 4 true fun r c => r == 1 && c == 1).analysis = true
      ∧ 3 ≤ (Board.mk 4 4 true fun r c => r == 1 && c == 1).rows
      ∧ 3 ≤ (Board.mk 4 4 true fun r c => r == 1 && c == 1).cols
      ∧ solveGF2 (fillEqs (Board.mk 4 4 true fun r c => r == 1 && c == 1))
          (fillVars (Board.mk 4 4 true fun r c => r == 1 && c == 1)).length = none
      ∧ fillOuterToZeroGF4 (Board.mk 4 4 true fun r c => r == 1 && c == 1)
          = Board.mk 4 4 true fun r c => r == 1 && c == 1 :=
  ⟨by decide, by decide, by decide, by decide,
    fill_restore_on_failure (Board.mk 4 4 true fun r c => r == 1 && c == 1)
      (by decide) (by decide) (by decide) (by decide)⟩

/-! ## Idempotence of the border fill (claim C6) -/

theorem board_ext (b1 b2 : Board) (h1 : b1.rows = b2.rows) (h2 : b1.cols = b2.cols)
    (h3 : b1.analysis = b2.analysis) (h4 : ∀ r c, b1.cells r c = b2.cells r c) :
    b1 = b2 := by
  cases b1
  cases b2
  simp only at h1 h2 h3 h4
  subst h1
  subst h2
  subst h3
  congr 1
  funext r c
  exact h4 r c

/-- C6: running fillOuterToZeroGF4 twice in a row, with no mutation in
between, leaves the board exactly as after one run: the second call
recomputes the same system from the unchanged interior and writes the
same border values. -/
theorem fill_idempotent (b : Board) :
    fillOuterToZeroGF4 (fillOuterToZeroGF4 b) = fillOuterToZeroGF4 b := by
  by_cases hg : b.analysis = false ∨ b.rows < 3 ∨ b.cols < 3
  · rw [fill_eq_of_guard b hg, fill_eq_of_guard b hg]
  · push_neg at hg
    obtain ⟨ha0, hr, hc⟩ := hg
    have ha : b.analysis = true := eq_true_of_ne_false ha0
    cases hsol : solveGF2 (fillEqs b) (fillVars b).length with
    | none => rw [fill_restore_eq b ha hr hc hsol, fill_restore_eq b ha hr hc hsol]
    | some sol =>
      rw [fill_eq_write b ha hr hc sol hsol]
      set w := writeCells (zeroBorderCells b).cells ((fillVars b).zip sol) with hw
      have hz : zeroBorderCells { b with cells := w } = zeroBorderCells b := by
        apply board_ext
        · rfl
        · rfl
        · rfl
        intro r c
        rw [zeroBorderCells_cells, zeroBorderCells_cells]
        show (if (r, c) ∈ fillVars b then false else w r c)
          = if (r, c) ∈ fillVars b then false else b.cells r c
        by_cases hm : (r, c) ∈ fillVars b
        · rw [if_pos hm, if_pos hm]
        · rw [if_neg hm, if_neg hm, hw, writeCells_zip_not_mem _ _ _ _ _ hm,
            zeroBorderCells_cells, if_neg hm]
      have heqs : fillEqs { b with cells := w } = fillEqs b := by
        unfold fillEqs fillInternalRow fillInternalCol
        rw [hz]
        rfl
      have hs' : solveGF2 (fillEqs { b with cells := w })
          (fillVars { b with cells := w }).length = some sol := by
        rw [heqs]
        exact hsol
      rw [fill_eq_write { b with cells := w } ha hr hc sol hs', hz]
      rfl

/-! ## borderVars: counting (claim C10) -/

theorem filter_range_eq_zero (n : Nat) (hn : 1 ≤ n) :
    (List.range n).filter (fun c => decide (c = 0)) = [0] := by
  induction n, hn using Nat.le_induction with
  | base => rfl
  | succ n hn ih =>
    rw [List.range_succ, List.filter_append, ih]
    have : (List.filter (fun c => decide (c = 0)) [n]) = [] := by
      simp
      omega
    rw [this]
    rfl

theorem filter_range_two (cols : Nat) (hc : 2 ≤ cols) :
    (List.range cols).filter (fun c => decide (c = 0 ∨ c = cols - 1)) = [0, cols - 1] := by
  obtain ⟨m, rfl⟩ : ∃ m, cols = m + 1 := ⟨cols - 1, by omega⟩
  rw [List.range_succ, List.filter_append]
  have h1 : (List.range m).filter (fun c => decide (c = 0 ∨ c = m + 1 - 1))
      = (List.range m).filter (fun c => decide (c = 0)) := by
    apply List.filter_congr
    intro c hc'
    rw [List.mem_range] at hc'
    simp only [decide_eq_decide]
    omega
  have h2 : (List.filter (fun c => decide (c = 0 ∨ c = m + 1 - 1)) [m]) = [m] := by
    simp
  rw [h1, filter_range_eq_zero m (by omega), h2]
  simp

theorem sum_map_range (g : Nat → Nat) (n : Nat) :
    ((List.range n).map g).sum = ∑ i ∈ Finset.range n, g i := by
  induction n with
  | zero => simp
  | succ n ih =>
    rw [List.range_succ, List.map_append, List.sum_append, Finset.sum_range_succ, ih]
    simp

theorem borderVars_length (rows cols : Nat) (hr : 2 ≤ rows) (hc : 2 ≤ cols) :
    (borderVars rows cols).length = 2 * rows + 2 * cols - 4 := by
  rw [borderVars, List.length_flatMap]
  have hmap : List.map
      (List.length ∘ fun r => ((List.range cols).filter fun c =>
        decide (r = 0 ∨ r = rows - 1 ∨ c = 0 ∨ c = cols - 1)).map fun c => (r, c))
      (List.range rows)
      = List.map (fun r => if r = 0 ∨ r = rows - 1 then cols else 2) (List.range rows) := by
    apply List.map_congr_left
    intro r hrm
    rw [List.mem_range] at hrm
    show (((List.range cols).filter fun c =>
      decide (r = 0 ∨ r = rows - 1 ∨ c = 0 ∨ c = cols - 1)).map fun c => (r, c)).length = _
    rw [List.length_map]
    by_cases hre : r = 0 ∨ r = rows - 1
    · rw [if_pos hre]
      have : (List.range cols).filter (fun c =>
          decide (r = 0 ∨ r = rows - 1 ∨ c = 0 ∨ c = cols - 1)) = List.range cols := by
        rw [List.filter_eq_self]
        intro c _
        simp only [decide_eq_true_eq]
        tauto
      rw [this, List.length_range]
    · rw [if_neg hre]
      have hcong : (List.range cols).filter (fun c =>
          decide (r = 0 ∨ r = rows - 1 ∨ c = 0 ∨ c = cols - 1))
          = (List.range cols).filter (fun c => decide (c = 0 ∨ c = cols - 1)) := by
        apply List.filter_congr
        intro c _
        simp only [decide_eq_decide]
        tauto
      rw [hcong, filter_range_two cols hc]
      rfl
  rw [hmap, sum_map_range]
  have hsub : ({0, rows - 1} : Finset Nat) ⊆ Finset.range rows := by
    intro x hx
    simp only [Finset.mem_insert, Finset.mem_singleton] at hx
    rw [Finset.mem_range]
    omega
  have hne : (0 : Nat) ≠ rows - 1 := by omega
  rw [← Finset.sum_sdiff hsub]
  have hA : ∑ x ∈ ({0, rows - 1} : Finset Nat),
      (if x = 0 ∨ x = rows - 1 then cols else 2) = cols + cols := by
    rw [Finset.sum_pair hne]
    rw [if_pos (Or.inl rfl), if_pos (Or.inr rfl)]
  have hB : ∑ x ∈ Finset.range rows \ ({0, rows - 1} : Finset Nat),
      (if x = 0 ∨ x = rows - 1 then cols else 2)
      = (Finset.range rows \ ({0, rows - 1} : Finset Nat)).card * 2 := by
    rw [Finset.sum_congr rfl (g := fun _ => 2), Finset.sum_const, smul_eq_mul]
    intro x hx
    rw [Finset.mem_sdiff, Finset.mem_insert, Finset.mem_singleton] at hx
    rw [if_neg]
    tauto
  have hcard : (Finset.range rows \ ({0, rows - 1} : Finset Nat)).card = rows - 2 := by
    rw [Finset.card_sdiff hsub, Finset.card_range, Finset.card_pair hne]
  rw [hA, hB, hcard]
  omega

/-- C10: for rows, cols at least 2, the border enumeration has exactly
2*rows + 2*cols - 4 entries, contains each in-range border coordinate
exactly once, is listed in row-major order (strictly increasing packed
key r*cols+c), and the index lookup assigns every entry its unique
position; in particular a 22 x 22 bordered board yields 84 variables. -/
theorem borderVars_enumeration (rows cols : Nat) (hr : 2 ≤ rows) (hc : 2 ≤ cols) :
    (borderVars rows cols).length = 2 * rows + 2 * cols - 4
      ∧ (borderVars rows cols).Nodup
      ∧ (∀ r c, (r, c) ∈ borderVars rows cols ↔
          r < rows ∧ c < cols ∧ (r = 0 ∨ r = rows - 1 ∨ c = 0 ∨ c = cols - 1))
      ∧ List.Pairwise (fun p q : Nat × Nat => p.1 * cols + p.2 < q.1 * cols + q.2)
          (borderVars rows cols)
      ∧ (∀ i, i < (borderVars rows cols).length →
          idxOfVar (borderVars rows cols)
            ((borderVars rows cols).getD i (0, 0)).1
            ((borderVars rows cols).getD i (0, 0)).2 = some i)
      ∧ (borderVars 22 22).length = 84 := by
  refine ⟨borderVars_length rows cols hr hc, borderVars_nodup rows cols,
    fun r c => mem_borderVars rows cols r c, borderVars_pairwise_key rows cols, ?_, by decide⟩
  intro i hi
  apply (idxOfVar_some_iff _ _ _ i (borderVars_nodup rows cols)).mpr
  exact ⟨hi, rfl⟩

theorem borderVars_enumeration_witness :
    2 ≤ 3 ∧ 2 ≤ 4
      ∧ ((borderVars 3 4).length = 2 * 3 + 2 * 4 - 4
      ∧ (borderVars 3 4).Nodup
      ∧ (∀ r c, (r, c) ∈ borderVars 3 4 ↔
          r < 3 ∧ c < 4 ∧ (r = 0 ∨ r = 3 - 1 ∨ c = 0 ∨ c = 4 - 1))
      ∧ List.Pairwise (fun p q : Nat × Nat => p.1 * 4 + p.2 < q.1 * 4 + q.2)
          (borderVars 3 4)
      ∧ (∀ i, i < (borderVars 3 4).length →
          idxOfVar (borderVars 3 4)
            ((borderVars 3 4).getD i (0, 0)).1
            ((borderVars 3 4).getD i (0, 0)).2 = some i)
      ∧ (borderVars 22 22).length = 84) :=
  ⟨by decide, by decide, borderVars_enumeration 3 4 (by decide) (by decide)⟩

/-! ## GF(2) satisfaction -/

/-- An assignment, given as the bitset of true variables, satisfies one
GF(2) equation when the parity of the masked coefficients equals the
right-hand side. -/
def satEq (x : Nat) (e : Eqn) : Prop := bigintParity (e.bits &&& x) = e.rhs

/-- An assignment satisfies a system when it satisfies every equation. -/
def satSys (x : Nat) (A : List Eqn) : Prop := ∀ e ∈ A, satEq x e

theorem satSys_iff (x : Nat) (A : List Eqn) :
    satSys x A ↔ ∀ r, r < A.length → satEq x (getEq A r) := by
  constructor
  · intro h r hr
    exact h _ (getD_mem_of_lt A r ⟨0, 0⟩ hr)
  · intro h e he
    obtain ⟨r, hr, rfl⟩ := List.mem_iff_getElem.mp he
    have := h r hr
    rwa [getEq, List.getD_eq_getElem _ _ hr] at this

theorem satEq_xor_of (x : Nat) (e piv : Eqn) (h1 : satEq x e) (h2 : satEq x piv) :
    satEq x ⟨e.bits ^^^ piv.bits, e.rhs ^^^ piv.rhs⟩ := by
  unfold satEq at *
  simp only
  rw [Nat.and_xor_distrib_right, bigintParity_xor, h1, h2]

theorem satEq_of_xor (x : Nat) (e piv : Eqn)
    (h1 : satEq x ⟨e.bits ^^^ piv.bits, e.rhs ^^^ piv.rhs⟩) (h2 : satEq x piv) :
    satEq x e := by
  unfold satEq at *
  simp only at h1
  rw [Nat.and_xor_distrib_right, bigintParity_xor, h2] at h1
  have h3 := congrArg (fun t => t ^^^ piv.rhs) h1
  simp only [Nat.xor_assoc, Nat.xor_self, Nat.xor_zero] at h3
  exact h3

/-! ## findPivot / listSwap / elimRows characterisation -/

theorem getD_drop {α : Type} (l : List α) (s j : Nat) (d : α) :
    (l.drop s).getD j d = l.getD (s + j) d := by
  by_cases h : s + j < l.length
  · rw [List.getD_eq_getElem _ _ (by rw [List.length_drop]; omega),
      List.getD_eq_getElem _ _ h, List.getElem_drop]
  · rw [List.getD_eq_default _ _ (by rw [List.length_drop]; omega),
      List.getD_eq_default _ _ (by omega)]

theorem findPivotAux_some (col : Nat) (l : List Eqn) (s p : Nat)
    (h : findPivotAux col l s = some p) :
    s ≤ p ∧ p - s < l.length ∧ (l.getD (p - s) ⟨0, 0⟩).bits.testBit col = true
      ∧ ∀ j, j < p - s → (l.getD j ⟨0, 0⟩).bits.testBit col = false := by
  induction l generalizing s with
  | nil => simp [findPivotAux] at h
  | cons e rest ih =>
    rw [findPivotAux] at h
    by_cases he : e.bits.testBit col
    · rw [if_pos he] at h
      obtain rfl : s = p := by injection h
      refine ⟨Nat.le_refl _, by simp, by simpa using he, ?_⟩
      intro j hj
      omega
    · rw [if_neg he] at h
      obtain ⟨h1, h2, h3, h4⟩ := ih (s + 1) h
      have hps : p - s = (p - (s + 1)) + 1 := by omega
      refine ⟨by omega, by simp; omega, by rw [hps]; simpa using h3, ?_⟩
      intro j hj
      cases j with
      | zero => simpa using eq_false_of_ne_true (by simpa using he)
      | succ j' =>
        have := h4 j' (by omega)
        simpa using this

theorem findPivotAux_none (col : Nat) (l : List Eqn) (s : Nat)
    (h : findPivotAux col l s = none) :
    ∀ j, j < l.length → (l.getD j ⟨0, 0⟩).bits.testBit col = false := by
  induction l generalizing s with
  | nil => simp
  | cons e rest ih =>
    rw [findPivotAux] at h
    by_cases he : e.bits.testBit col
    · rw [if_pos he] at h
      exact absurd h (by simp)
    · rw [if_neg he] at h
      intro j hj
      cases j with
      | zero => simpa using eq_false_of_ne_true (by simpa using he)
      | succ j' => simpa using ih (s + 1) h j' (by simpa using hj)

theorem findPivot_some (A : List Eqn) (col pr p : Nat)
    (h : findPivot A col pr = some p) :
    pr ≤ p ∧ p < A.length ∧ (getEq A p).bits.testBit col = true
      ∧ ∀ r, pr ≤ r → r < p → (getEq A r).bits.testBit col = false := by
  obtain ⟨h1, h2, h3, h4⟩ := findPivotAux_some col (A.drop pr) pr p h
  rw [List.length_drop] at h2
  rw [getD_drop] at h3
  refine ⟨h1, by omega, ?_, ?_⟩
  · show (A.getD p ⟨0, 0⟩).bits.testBit col = true
    have : pr + (p - pr) = p := by omega
    rwa [this] at h3
  · intro r hr1 hr2
    have := h4 (r - pr) (by omega)
    rw [getD_drop] at this
    have he : pr + (r - pr) = r := by omega
    rwa [he] at this

theorem findPivot_none (A : List Eqn) (col pr : Nat) (h : findPivot A col pr = none) :
    ∀ r, pr ≤ r → r < A.length → (getEq A r).bits.testBit col = false := by
  intro r hr1 hr2
  have := findPivotAux_none col (A.drop pr) pr h (r - pr) (by rw [List.length_drop]; omega)
  rw [getD_drop] at this
  have he : pr + (r - pr) = r := by omega
  rwa [he] at this

theorem length_listSwap (A : List Eqn) (i j : Nat) :
    (listSwap A i j).length = A.length := by
  unfold listSwap
  rw [List.length_set, List.length_set]

theorem getEq_listSwap_left (A : List Eqn) (i j : Nat) (hi : i < A.length)
    (hj : j < A.length) : getEq (listSwap A i j) i = getEq A j := by
  unfold listSwap getEq
  by_cases he : i = j
  · subst he
    rw [getD_set_self _ _ _ _ (by rw [List.length_set]; exact hi)]
  · rw [getD_set_ne _ _ _ _ _ he, getD_set_self _ _ _ _ hi]

theorem getEq_listSwap_right (A : List Eqn) (i j : Nat) (hj : j < A.length) :
    getEq (listSwap A i j) j = getEq A i := by
  unfold listSwap getEq
  rw [getD_set_self _ _ _ _ (by rw [List.length_set]; exact hj)]

theorem getEq_listSwap_other (A : List Eqn) (i j r : Nat) (h1 : r ≠ i) (h2 : r ≠ j) :
    getEq (listSwap A i j) r = getEq A r := by
  unfold listSwap getEq
  rw [getD_set_ne _ _ _ _ _ h2, getD_set_ne _ _ _ _ _ h1]

theorem length_elimRowsAux (piv : Eqn) (col pr : Nat) :
    ∀ (l : List Eqn) (s : Nat), (elimRowsAux piv col pr l s).length = l.length
  | [], _ => rfl
  | e :: rest, s => by
    rw [elimRowsAux, List.length_cons, List.length_cons,
      length_elimRowsAux piv col pr rest (s + 1)]

theorem getEq_elimRowsAux (piv : Eqn) (col pr : Nat) :
    ∀ (l : List Eqn) (s j : Nat), j < l.length →
      getEq (elimRowsAux piv col pr l s) j =
        (if s + j = pr then getEq l j
         else if (getEq l j).bits.testBit col then
           ⟨(getEq l j).bits ^^^ piv.bits, (getEq l j).rhs ^^^ piv.rhs⟩
         else getEq l j) := by
  intro l
  induction l with
  | nil => intro s j hj; simp at hj
  | cons e rest ih =>
    intro s j hj
    rw [elimRowsAux]
    cases j with
    | zero =>
      show getEq _ 0 = _
      unfold getEq
      simp only [List.getD_cons_zero, Nat.add_zero]
    | succ j' =>
      have hj' : j' < rest.length := by simpa using hj
      have hstep := ih (s + 1) j' hj'
      unfold getEq at *
      simp only [List.getD_cons_succ]
      rw [hstep]
      have harith : s + 1 + j' = s + (j' + 1) := by omega
      rw [harith]

theorem getEq_elimRows (piv : Eqn) (col pr : Nat) (A : List Eqn) (r : Nat)
    (hr : r < A.length) :
    getEq (elimRows piv col pr A) r =
      (if r = pr then getEq A r
       else if (getEq A r).bits.testBit col then
         ⟨(getEq A r).bits ^^^ piv.bits, (getEq A r).rhs ^^^ piv.rhs⟩
       else getEq A r) := by
  unfold elimRows
  rw [getEq_elimRowsAux piv col pr A 0 r hr]
  simp only [Nat.zero_add]

theorem length_elimRows (piv : Eqn) (col pr : Nat) (A : List Eqn) :
    (elimRows piv col pr A).length = A.length :=
  length_elimRowsAux piv col pr A 0

/-! ## The elimination loop invariant -/

/-- Invariant of the column loop of solveGF2 after the columns below n
have been processed: sizes, strictly increasing pivot columns, the RREF
shape (pivot bit set in its own row, clear everywhere else, and rows
below the pivot row clear on all processed columns), preservation of the
width bound and of 0/1 right-hand sides, and preservation of the
solution set. -/
structure GaussInv (eqs : List Eqn) (nVars n : Nat) (st : GState) : Prop where
  lenA : st.A.length = eqs.length
  lenP : st.pivCols.length = st.pivRow
  pivLe : st.pivRow ≤ eqs.length
  mono : List.Pairwise (· < ·) st.pivCols
  ub : ∀ c ∈ st.pivCols, c < n
  diag : ∀ i, i < st.pivRow → (getEq st.A i).bits.testBit (st.pivCols.getD i 0) = true
  offd : ∀ i, i < st.pivRow → ∀ r, r < eqs.length → r ≠ i →
    (getEq st.A r).bits.testBit (st.pivCols.getD i 0) = false
  below : ∀ r, st.pivRow ≤ r → r < eqs.length → ∀ c, c < n →
    (getEq st.A r).bits.testBit c = false
  bitsLt : (∀ e ∈ eqs, e.bits < 2 ^ nVars) → ∀ r, r < eqs.length →
    (getEq st.A r).bits < 2 ^ nVars
  rhs01 : (∀ e ∈ eqs, e.rhs = 0 ∨ e.rhs = 1) → ∀ r, r < eqs.length →
    (getEq st.A r).rhs = 0 ∨ (getEq st.A r).rhs = 1
  solIff : ∀ x, satSys x eqs ↔ satSys x st.A

theorem xor01 (a b : Nat) (ha : a = 0 ∨ a = 1) (hb : b = 0 ∨ b = 1) :
    a ^^^ b = 0 ∨ a ^^^ b = 1 := by
  rcases ha with rfl | rfl <;> rcases hb with rfl | rfl <;> simp

theorem gaussInv_init (eqs : List Eqn) (nVars : Nat) :
    GaussInv eqs nVars 0 ⟨eqs, 0, []⟩ where
  lenA := rfl
  lenP := rfl
  pivLe := Nat.zero_le _
  mono := List.Pairwise.nil
  ub := by intro c hc; simp at hc
  diag := by intro i hi; simp at hi
  offd := by intro i hi; simp at hi
  below := by intro r _ _ c hc; omega
  bitsLt := by
    intro h r hr
    exact h _ (getD_mem_of_lt eqs r ⟨0, 0⟩ hr)
  rhs01 := by
    intro h r hr
    exact h _ (getD_mem_of_lt eqs r ⟨0, 0⟩ hr)
  solIff := fun _ => Iff.rfl

theorem elimStep_inv_none (eqs : List Eqn) (nVars n : Nat) (st : GState)
    (inv : GaussInv eqs nVars n st) (hfp : findPivot st.A n st.pivRow = none) :
    GaussInv eqs nVars (n + 1) (elimStep st n) := by
  have hstep : elimStep st n = st := by
    unfold elimStep
    rw [hfp]
  rw [hstep]
  refine ⟨inv.lenA, inv.lenP, inv.pivLe, inv.mono, ?_, inv.diag, inv.offd, ?_,
    inv.bitsLt, inv.rhs01, inv.solIff⟩
  · intro c hc
    exact Nat.lt_succ_of_lt (inv.ub c hc)
  · intro r hr1 hr2 c hc
    rcases Nat.lt_succ_iff_lt_or_eq.mp hc with h | rfl
    · exact inv.below r hr1 hr2 c h
    · exact findPivot_none st.A c st.pivRow hfp r hr1 (by rw [inv.lenA]; exact hr2)

theorem elimStep_inv_some (eqs : List Eqn) (nVars n : Nat) (st : GState)
    (inv : GaussInv eqs nVars n st) (p : Nat)
    (hfp : findPivot st.A n st.pivRow = some p) :
    GaussInv eqs nVars (n + 1) (elimStep st n) := by
  obtain ⟨hp1, hp2, hp3, _⟩ := findPivot_some st.A n st.pivRow p hfp
  have hLen : st.A.length = eqs.length := inv.lenA
  have hprA : st.pivRow < st.A.length := Nat.lt_of_le_of_lt hp1 hp2
  have hstep : elimStep st n =
      ⟨elimRows (getEq (listSwap st.A st.pivRow p) st.pivRow) n st.pivRow
          (listSwap st.A st.pivRow p),
        st.pivRow + 1, st.pivCols ++ [n]⟩ := by
    unfold elimStep
    rw [hfp]
  set A1 := listSwap st.A st.pivRow p with hA1
  set piv := getEq A1 st.pivRow with hpiv
  rw [hstep]
  have hlenA1 : A1.length = st.A.length := length_listSwap _ _ _
  have hpivEq : piv = getEq st.A p := getEq_listSwap_left st.A st.pivRow p hprA hp2
  have hswap_p : getEq A1 p = getEq st.A st.pivRow :=
    getEq_listSwap_right st.A st.pivRow p hp2
  have hswap_other : ∀ r, r ≠ st.pivRow → r ≠ p → getEq A1 r = getEq st.A r :=
    fun r h1 h2 => getEq_listSwap_other st.A st.pivRow p r h1 h2
  -- the pivot row has all processed columns clear, and column n set
  have pivc : ∀ c, c < n → piv.bits.testBit c = false := by
    intro c hc
    rw [hpivEq]
    exact inv.below p hp1 (hLen ▸ hp2) c hc
  have hpivn : piv.bits.testBit n = true := by rw [hpivEq]; exact hp3
  -- every A1 row at position >= pivRow is an st.A row at position >= pivRow
  have hA1below : ∀ r, st.pivRow ≤ r → r < st.A.length → ∀ c, c < n →
      (getEq A1 r).bits.testBit c = false := by
    intro r hr1 hr2 c hc
    by_cases he1 : r = st.pivRow
    · subst he1
      rw [← hpiv]
      exact pivc c hc
    by_cases he2 : r = p
    · subst he2
      rw [hswap_p]
      exact inv.below st.pivRow (Nat.le_refl _) (hLen ▸ hprA) c hc
    · rw [hswap_other r he1 he2]
      exact inv.below r hr1 (hLen ▸ hr2) c hc
  -- rows strictly below pivRow are untouched by the swap
  have hA1low : ∀ r, r < st.pivRow → getEq A1 r = getEq st.A r := by
    intro r hr
    exact hswap_other r (by omega) (by omega)
  set A2 := elimRows piv n st.pivRow A1 with hA2
  have hA2len : A2.length = st.A.length := by
    rw [hA2, length_elimRows, hlenA1]
  have hA2get : ∀ r, r < st.A.length → getEq A2 r =
      (if r = st.pivRow then getEq A1 r
       else if (getEq A1 r).bits.testBit n then
         ⟨(getEq A1 r).bits ^^^ piv.bits, (getEq A1 r).rhs ^^^ piv.rhs⟩
       else getEq A1 r) := by
    intro r hr
    exact getEq_elimRows piv n st.pivRow A1 r (by omega)
  have hA2piv : getEq A2 st.pivRow = piv := by
    rw [hA2get st.pivRow hprA, if_pos rfl, hpiv]
  -- pivot-column bookkeeping for the appended column list
  have hPCget : ∀ i, i < st.pivCols.length →
      (st.pivCols ++ [n]).getD i 0 = st.pivCols.getD i 0 := by
    intro i hi
    exact List.getD_append _ _ _ _ hi
  have hPCtop : (st.pivCols ++ [n]).getD st.pivCols.length 0 = n := by
    rw [List.getD_append_right _ _ _ _ (Nat.le_refl _), Nat.sub_self]
    rfl
  have hPClt : ∀ i, i < st.pivCols.length → st.pivCols.getD i 0 < n := by
    intro i hi
    exact inv.ub _ (getD_mem_of_lt _ i 0 hi)
  have hlenP : st.pivCols.length = st.pivRow := inv.lenP
  -- A2 rows other than the pivot row keep their old bits on processed columns
  have hA2old : ∀ r, r < st.A.length → r ≠ st.pivRow → ∀ c, c < n →
      (getEq A2 r).bits.testBit c = (getEq A1 r).bits.testBit c := by
    intro r hr hrp c hc
    rw [hA2get r hr, if_neg hrp]
    by_cases ht : (getEq A1 r).bits.testBit n
    · rw [if_pos ht]
      show ((getEq A1 r).bits ^^^ piv.bits).testBit c = _
      rw [Nat.testBit_xor, pivc c hc]
      cases (getEq A1 r).bits.testBit c <;> rfl
    · rw [if_neg ht]
  -- column n is set exactly on the pivot row after elimination
  have hA2coln : ∀ r, r < st.A.length → r ≠ st.pivRow →
      (getEq A2 r).bits.testBit n = false := by
    intro r hr hrp
    rw [hA2get r hr, if_neg hrp]
    by_cases ht : (getEq A1 r).bits.testBit n
    · rw [if_pos ht]
      show ((getEq A1 r).bits ^^^ piv.bits).testBit n = false
      rw [Nat.testBit_xor, ht, hpivn]
      rfl
    · rw [if_neg ht]
      exact eq_false_of_ne_true ht
  have hPCtop' : (st.pivCols ++ [n]).getD st.pivRow 0 = n := by
    rw [← hlenP]
    exact hPCtop
  -- the old pivot columns keep a set bit exactly on their own row in A2
  have hA2diag_old : ∀ i, i < st.pivRow →
      (getEq A2 i).bits.testBit (st.pivCols.getD i 0) = true := by
    intro i hilt
    have hciltn : st.pivCols.getD i 0 < n := hPClt i (by omega)
    rw [hA2old i (by omega) (by omega) _ hciltn, hA1low i hilt]
    exact inv.diag i hilt
  have hA2offd_old : ∀ i, i < st.pivRow → ∀ r, r < st.A.length → r ≠ i →
      (getEq A2 r).bits.testBit (st.pivCols.getD i 0) = false := by
    intro i hilt r hr hri
    have hciltn : st.pivCols.getD i 0 < n := hPClt i (by omega)
    by_cases hrp : r = st.pivRow
    · subst hrp
      rw [hA2piv]
      exact pivc _ hciltn
    · rw [hA2old r hr hrp _ hciltn]
      by_cases he1 : r = p
      · subst he1
        rw [hswap_p]
        exact inv.offd i hilt st.pivRow (hLen ▸ hprA) (by omega)
      · rw [hswap_other r hrp he1]
        exact inv.offd i hilt r (hLen ▸ hr) hri
  refine ⟨?_, ?_, ?_, ?_, ?_, ?_, ?_, ?_, ?_, ?_, ?_⟩
  · show A2.length = eqs.length
    omega
  · show (st.pivCols ++ [n]).length = st.pivRow + 1
    rw [List.length_append]
    simp only [List.length_singleton]
    omega
  · show st.pivRow + 1 ≤ eqs.length
    omega
  · show List.Pairwise (· < ·) (st.pivCols ++ [n])
    rw [List.pairwise_append]
    exact ⟨inv.mono, List.pairwise_singleton _ _,
      fun a ha b hb => by
        have := inv.ub a ha
        simp only [List.mem_singleton] at hb
        omega⟩
  · intro c hc
    rcases List.mem_append.mp hc with h | h
    · exact Nat.lt_succ_of_lt (inv.ub c h)
    · simp only [List.mem_singleton] at h
      omega
  · -- diag
    intro i hi
    show (getEq A2 i).bits.testBit ((st.pivCols ++ [n]).getD i 0) = true
    rcases Nat.lt_succ_iff_lt_or_eq.mp hi with hilt | rfl
    · rw [hPCget i (by omega)]
      exact hA2diag_old i hilt
    · rw [hPCtop', hA2piv]
      exact hpivn
  · -- offd
    intro i hi r hr hri
    show (getEq A2 r).bits.testBit ((st.pivCols ++ [n]).getD i 0) = false
    rcases Nat.lt_succ_iff_lt_or_eq.mp hi with hilt | rfl
    · rw [hPCget i (by omega)]
      exact hA2offd_old i hilt r (by omega) hri
    · rw [hPCtop']
      exact hA2coln r (by omega) hri
  · -- below
    intro r hr1 hr2 c hc
    show (getEq A2 r).bits.testBit c = false
    have hr1' : st.pivRow + 1 ≤ r := hr1
    have hrp : r ≠ st.pivRow := by omega
    rcases Nat.lt_succ_iff_lt_or_eq.mp hc with hcn | rfl
    · rw [hA2old r (by omega) hrp c hcn]
      exact hA1below r (by omega) (by omega) c hcn
    · exact hA2coln r (by omega) hrp
  · -- bitsLt
    intro hb r hr
    show (getEq A2 r).bits < 2 ^ nVars
    have hbase : ∀ r', r' < st.A.length → (getEq A1 r').bits < 2 ^ nVars := by
      intro r' hr'
      by_cases he1 : r' = st.pivRow
      · subst he1
        rw [← hpiv, hpivEq]
        exact inv.bitsLt hb p (by omega)
      by_cases he2 : r' = p
      · subst he2
        rw [hswap_p]
        exact inv.bitsLt hb st.pivRow (by omega)
      · rw [hswap_other r' he1 he2]
        exact inv.bitsLt hb r' (by omega)
    rw [hA2get r (by omega)]
    by_cases h1 : r = st.pivRow
    · rw [if_pos h1]
      exact hbase r (by omega)
    rw [if_neg h1]
    by_cases h2 : (getEq A1 r).bits.testBit n
    · rw [if_pos h2]
      exact Nat.xor_lt_two_pow (hbase r (by omega))
        (by rw [hpivEq]; exact inv.bitsLt hb p (by omega))
    · rw [if_neg h2]
      exact hbase r (by omega)
  · -- rhs01
    intro hb r hr
    show (getEq A2 r).rhs = 0 ∨ (getEq A2 r).rhs = 1
    have hbase : ∀ r', r' < st.A.length → (getEq A1 r').rhs = 0 ∨ (getEq A1 r').rhs = 1 := by
      intro r' hr'
      by_cases he1 : r' = st.pivRow
      · subst he1
        rw [← hpiv, hpivEq]
        exact inv.rhs01 hb p (by omega)
      by_cases he2 : r' = p
      · subst he2
        rw [hswap_p]
        exact inv.rhs01 hb st.pivRow (by omega)
      · rw [hswap_other r' he1 he2]
        exact inv.rhs01 hb r' (by omega)
    rw [hA2get r (by omega)]
    by_cases h1 : r = st.pivRow
    · rw [if_pos h1]
      exact hbase r (by omega)
    rw [if_neg h1]
    by_cases h2 : (getEq A1 r).bits.testBit n
    · rw [if_pos h2]
      exact xor01 _ _ (hbase r (by omega))
        (by rw [hpivEq]; exact inv.rhs01 hb p (by omega))
    · rw [if_neg h2]
      exact hbase r (by omega)
  · -- solIff
    intro x
    show satSys x eqs ↔ satSys x A2
    rw [inv.solIff x]
    have hswapIff : satSys x st.A ↔ satSys x A1 := by
      rw [satSys_iff, satSys_iff]
      constructor
      · intro h r hr
        rw [hlenA1] at hr
        by_cases he1 : r = st.pivRow
        · subst he1
          rw [← hpiv, hpivEq]
          exact h p hp2
        by_cases he2 : r = p
        · subst he2
          rw [hswap_p]
          exact h st.pivRow hprA
        · rw [hswap_other r he1 he2]
          exact h r hr
      · intro h r hr
        by_cases he1 : r = st.pivRow
        · subst he1
          rw [← hswap_p]
          exact h p (by omega)
        by_cases he2 : r = p
        · subst he2
          rw [← hpivEq, hpiv]
          exact h st.pivRow (by omega)
        · rw [← hswap_other r he1 he2]
          exact h r (by omega)
    rw [hswapIff, satSys_iff, satSys_iff]
    have hpivsat : (∀ r, r < A1.length → satEq x (getEq A1 r)) → satEq x piv := by
      intro h
      rw [hpiv]
      exact h st.pivRow (by omega)
    constructor
    · intro h r hr
      rw [hA2len, ← hlenA1] at hr
      rw [hA2get r (by omega)]
      by_cases h1 : r = st.pivRow
      · rw [if_pos h1]
        exact h r hr
      rw [if_neg h1]
      by_cases h2 : (getEq A1 r).bits.testBit n
      · rw [if_pos h2]
        exact satEq_xor_of x _ piv (h r hr) (hpivsat h)
      · rw [if_neg h2]
        exact h r hr
    · intro h r hr
      have hpivsat2 : satEq x piv := by
        rw [← hA2piv]
        exact h st.pivRow (by omega)
      by_cases h1 : r = st.pivRow
      · subst h1
        rw [hpiv] at hpivsat2
        exact hpivsat2
      by_cases h2 : (getEq A1 r).bits.testBit n
      · have hx := h r (by omega)
        rw [hA2get r (by omega), if_neg h1, if_pos h2] at hx
        exact satEq_of_xor x _ piv hx hpivsat2
      · have hx := h r (by omega)
        rw [hA2get r (by omega), if_neg h1, if_neg h2] at hx
        exact hx

/-! ## Running the loop and substituting back -/

theorem gaussN_inv (eqs : List Eqn) (nVars : Nat) :
    ∀ n : Nat, GaussInv eqs nVars n (gaussN eqs n) := by
  intro n
  induction n with
  | zero => exact gaussInv_init eqs nVars
  | succ n ih =>
    have h1 : gaussN eqs (n + 1) = elimStep (gaussN eqs n) n := by
      unfold gaussN
      rw [List.range_succ, List.foldl_append]
      rfl
    rw [h1]
    cases hfp : findPivot (gaussN eqs n).A n (gaussN eqs n).pivRow with
    | none => exact elimStep_inv_none eqs nVars n _ ih hfp
    | some p => exact elimStep_inv_some eqs nVars n _ ih p hfp

theorem testBit_clearBit (b col t : Nat) :
    (clearBit b col).testBit t = if t = col then false else b.testBit t := by
  unfold clearBit
  by_cases hc : b.testBit col
  · rw [if_pos hc, Nat.one_shiftLeft, Nat.testBit_xor, Nat.testBit_two_pow]
    by_cases ht : t = col
    · subst ht
      simp [hc]
    · have hct : col ≠ t := fun h => ht h.symm
      simp [ht, hct]
  · rw [if_neg hc]
    by_cases ht : t = col
    · subst ht
      simp [hc]
    · rw [if_neg ht]

theorem getD_replicate_self {α : Type} (n t : Nat) (a : α) :
    (List.replicate n a).getD t a = a := by
  induction n generalizing t with
  | zero => rfl
  | succ n ih =>
    cases t with
    | zero => rfl
    | succ t' => simpa [List.replicate] using ih t'

/-- The bitset of a boolean assignment list: bit i holds entry i. -/
def assignBits : List Bool → Nat
  | [] => 0
  | b :: rest => 2 * assignBits rest + (if b then 1 else 0)

theorem assignBits_testBit (xs : List Bool) :
    ∀ t, (assignBits xs).testBit t = xs.getD t false := by
  induction xs with
  | nil => intro t; simp [assignBits, Nat.zero_testBit]
  | cons b rest ih =>
    intro t
    show (2 * assignBits rest + (if b then 1 else 0)).testBit t = _
    cases t with
    | zero =>
      rw [Nat.testBit_zero]
      cases b <;> simp <;> omega
    | succ t' =>
      rw [Nat.testBit_succ]
      have hd : (2 * assignBits rest + (if b then 1 else 0)) / 2 = assignBits rest := by
        cases b <;> simp <;> omega
      rw [hd]
      simpa using ih t'

theorem assignBits_lt (xs : List Bool) : assignBits xs < 2 ^ xs.length := by
  induction xs with
  | nil => simp [assignBits]
  | cons b rest ih =>
    show 2 * assignBits rest + (if b then 1 else 0) < 2 ^ (rest.length + 1)
    rw [Nat.pow_succ]
    cases b <;> simp <;> omega

theorem backSubSteps_unfold (A : List Eqn) (pivCols : List Nat) (nVars j : Nat) :
    backSubSteps A pivCols nVars (j + 1)
      = (if (getEq A (pivCols.length - 1 - j)).rhs ^^^
            bigintParity (clearBit (getEq A (pivCols.length - 1 - j)).bits
                (pivCols.getD (pivCols.length - 1 - j) 0) &&&
              (backSubSteps A pivCols nVars j).2) = 1
        then ((backSubSteps A pivCols nVars j).1.set
                (pivCols.getD (pivCols.length - 1 - j) 0) true,
              (backSubSteps A pivCols nVars j).2
                ||| (1 <<< pivCols.getD (pivCols.length - 1 - j) 0))
        else backSubSteps A pivCols nVars j) := rfl

theorem backSubSteps_bits_char (A : List Eqn) (pivCols : List Nat) (nVars : Nat)
    (hoffd : ∀ l, l < pivCols.length → ∀ r, r < pivCols.length → r ≠ l →
      (getEq A r).bits.testBit (pivCols.getD l 0) = false)
    (hr01 : ∀ r, r < pivCols.length → (getEq A r).rhs = 0 ∨ (getEq A r).rhs = 1) :
    ∀ j, j ≤ pivCols.length → ∀ t,
      ((backSubSteps A pivCols nVars j).2.testBit t = true ↔
        ∃ l, pivCols.length - j ≤ l ∧ l < pivCols.length
          ∧ pivCols.getD l 0 = t ∧ (getEq A l).rhs = 1) := by
  intro j
  induction j with
  | zero =>
    intro _ t
    show (0 : Nat).testBit t = true ↔ _
    rw [Nat.zero_testBit]
    constructor
    · intro h
      exact absurd h (by simp)
    · rintro ⟨l, h1, h2, _, _⟩
      omega
  | succ j ih =>
    intro hj t
    have hjk : j < pivCols.length := by omega
    have hik : pivCols.length - 1 - j < pivCols.length := by omega
    have hand : clearBit (getEq A (pivCols.length - 1 - j)).bits
        (pivCols.getD (pivCols.length - 1 - j) 0)
        &&& (backSubSteps A pivCols nVars j).2 = 0 := by
      apply Nat.eq_of_testBit_eq
      intro u
      rw [Nat.testBit_and, Nat.zero_testBit]
      by_cases hx : (backSubSteps A pivCols nVars j).2.testBit u = true
      · obtain ⟨l, hl1, hl2, hl3, _⟩ := (ih (by omega) u).mp hx
        have hlne : pivCols.length - 1 - j ≠ l := by omega
        rw [testBit_clearBit]
        by_cases hu : u = pivCols.getD (pivCols.length - 1 - j) 0
        · rw [if_pos hu]
          rfl
        · rw [if_neg hu]
          have hoff := hoffd l hl2 (pivCols.length - 1 - j) hik hlne
          rw [hl3] at hoff
          rw [hoff]
          rfl
      · rw [eq_false_of_ne_true hx, Bool.and_false]
    rw [backSubSteps_unfold, hand, bigintParity_zero, Nat.xor_zero]
    rcases hr01 (pivCols.length - 1 - j) hik with h0 | h1
    · rw [h0]
      rw [if_neg (by omega)]
      rw [ih (by omega) t]
      constructor
      · rintro ⟨l, hl1, hl2, hl3, hl4⟩
        exact ⟨l, by omega, hl2, hl3, hl4⟩
      · rintro ⟨l, hl1, hl2, hl3, hl4⟩
        refine ⟨l, ?_, hl2, hl3, hl4⟩
        by_cases he : l = pivCols.length - 1 - j
        · subst he
          rw [h0] at hl4
          omega
        · omega
    · rw [h1, if_pos rfl]
      show ((backSubSteps A pivCols nVars j).2
        ||| (1 <<< pivCols.getD (pivCols.length - 1 - j) 0)).testBit t = true ↔ _
      rw [Nat.one_shiftLeft, Nat.testBit_or, Nat.testBit_two_pow]
      constructor
      · intro h
        rcases Bool.or_eq_true_iff.mp h with h | h
        · obtain ⟨l, hl1, hl2, hl3, hl4⟩ := (ih (by omega) t).mp h
          exact ⟨l, by omega, hl2, hl3, hl4⟩
        · refine ⟨pivCols.length - 1 - j, by omega, hik, ?_, h1⟩
          exact of_decide_eq_true h
      · rintro ⟨l, hl1, hl2, hl3, hl4⟩
        by_cases he : l = pivCols.length - 1 - j
        · subst he
          rw [hl3]
          simp
        · have hmem : (backSubSteps A pivCols nVars j).2.testBit t = true :=
            (ih (by omega) t).mpr ⟨l, by omega, hl2, hl3, hl4⟩
          rw [hmem]
          simp

theorem backSubSteps_fst_char (A : List Eqn) (pivCols : List Nat) (nVars : Nat)
    (hlt : ∀ c ∈ pivCols, c < nVars) :
    ∀ j, j ≤ pivCols.length →
      ((backSubSteps A pivCols nVars j).1.length = nVars
        ∧ (∀ t, nVars ≤ t → (backSubSteps A pivCols nVars j).2.testBit t = false)
        ∧ ∀ t, (backSubSteps A pivCols nVars j).1.getD t false
            = (backSubSteps A pivCols nVars j).2.testBit t) := by
  intro j
  induction j with
  | zero =>
    intro _
    refine ⟨List.length_replicate _ _, fun t _ => Nat.zero_testBit t, fun t => ?_⟩
    show (List.replicate nVars false).getD t false = (0 : Nat).testBit t
    rw [getD_replicate_self, Nat.zero_testBit]
  | succ j ih =>
    intro hj
    obtain ⟨ihl, ihhi, ihs⟩ := ih (by omega)
    have hik : pivCols.length - 1 - j < pivCols.length := by omega
    have hcol : pivCols.getD (pivCols.length - 1 - j) 0 < nVars :=
      hlt _ (getD_mem_of_lt _ _ 0 hik)
    rw [backSubSteps_unfold]
    by_cases hcond : (getEq A (pivCols.length - 1 - j)).rhs ^^^
        bigintParity (clearBit (getEq A (pivCols.length - 1 - j)).bits
            (pivCols.getD (pivCols.length - 1 - j) 0) &&&
          (backSubSteps A pivCols nVars j).2) = 1
    · rw [if_pos hcond]
      refine ⟨?_, ?_, ?_⟩
      · show ((backSubSteps A pivCols nVars j).1.set _ true).length = nVars
        rw [List.length_set, ihl]
      · intro t ht
        show ((backSubSteps A pivCols nVars j).2
          ||| (1 <<< pivCols.getD (pivCols.length - 1 - j) 0)).testBit t = false
        rw [Nat.one_shiftLeft, Nat.testBit_or, ihhi t ht, Nat.testBit_two_pow, Bool.false_or]
        exact decide_eq_false (by omega)
      · intro t
        show ((backSubSteps A pivCols nVars j).1.set _ true).getD t false
          = ((backSubSteps A pivCols nVars j).2
              ||| (1 <<< pivCols.getD (pivCols.length - 1 - j) 0)).testBit t
        rw [Nat.one_shiftLeft, Nat.testBit_or, Nat.testBit_two_pow]
        by_cases ht : t = pivCols.getD (pivCols.length - 1 - j) 0
        · subst ht
          rw [getD_set_self _ _ _ _ (by rw [ihl]; exact hcol)]
          simp
        · rw [getD_set_ne _ _ _ _ _ ht, ihs t]
          have hde : decide (pivCols.getD (pivCols.length - 1 - j) 0 = t) = false :=
            decide_eq_false (fun h => ht h.symm)
          rw [hde, Bool.or_false]
    · rw [if_neg hcond]
      exact ⟨ihl, ihhi, ihs⟩

theorem backSubSteps_free (A : List Eqn) (pivCols : List Nat) (nVars : Nat) :
    ∀ j, j ≤ pivCols.length → ∀ t, t ∉ pivCols →
      (backSubSteps A pivCols nVars j).1.getD t false = false := by
  intro j
  induction j with
  | zero =>
    intro _ t _
    exact getD_replicate_self nVars t false
  | succ j ih =>
    intro hj t ht
    have hik : pivCols.length - 1 - j < pivCols.length := by omega
    have hcolmem : pivCols.getD (pivCols.length - 1 - j) 0 ∈ pivCols :=
      getD_mem_of_lt _ _ 0 hik
    rw [backSubSteps_unfold]
    by_cases hcond : (getEq A (pivCols.length - 1 - j)).rhs ^^^
        bigintParity (clearBit (getEq A (pivCols.length - 1 - j)).bits
            (pivCols.getD (pivCols.length - 1 - j) 0) &&&
          (backSubSteps A pivCols nVars j).2) = 1
    · rw [if_pos hcond]
      show ((backSubSteps A pivCols nVars j).1.set _ true).getD t false = false
      have htne : t ≠ pivCols.getD (pivCols.length - 1 - j) 0 := by
        intro he
        exact ht (he ▸ hcolmem)
      rw [getD_set_ne _ _ _ _ _ htne]
      exact ih (by omega) t ht
    · rw [if_neg hcond]
      exact ih (by omega) t ht

theorem solveGF2_unfold (eqs : List Eqn) (nVars : Nat) :
    solveGF2 eqs nVars =
      if (gaussN eqs nVars).A.any (fun e => e.bits == 0 && e.rhs == 1) then none
      else some (backSubSteps (gaussN eqs nVars).A (gaussN eqs nVars).pivCols nVars
        (gaussN eqs nVars).pivCols.length).1 := rfl

theorem solveGF2_spec (eqs : List Eqn) (nVars : Nat)
    (hb : ∀ e ∈ eqs, e.bits < 2 ^ nVars) (hr : ∀ e ∈ eqs, e.rhs = 0 ∨ e.rhs = 1) :
    (solveGF2 eqs nVars = none ↔ ¬ ∃ x, x < 2 ^ nVars ∧ satSys x eqs)
      ∧ ∀ xs, solveGF2 eqs nVars = some xs → satSys (assignBits xs) eqs := by
  have inv := gaussN_inv eqs nVars nVars
  set st := gaussN eqs nVars with hst
  by_cases hchk : st.A.any (fun e => e.bits == 0 && e.rhs == 1) = true
  · obtain ⟨e, he, hbe⟩ := List.any_eq_true.mp hchk
    obtain ⟨h1, h2⟩ := Bool.and_eq_true_iff.mp hbe
    have hbe1 : e.bits = 0 := beq_iff_eq.mp h1
    have hbe2 : e.rhs = 1 := beq_iff_eq.mp h2
    have hnone : solveGF2 eqs nVars = none := by
      rw [solveGF2_unfold, if_pos hchk]
    constructor
    · rw [hnone]
      constructor
      · intro _
        rintro ⟨x, _, hsat⟩
        have hsat2 := (inv.solIff x).mp hsat
        have he2 := hsat2 e he
        unfold satEq at he2
        rw [hbe1, Nat.zero_and, bigintParity_zero, hbe2] at he2
        exact absurd he2 (by omega)
      · intro _
        rfl
    · intro xs hxs
      rw [hnone] at hxs
      exact absurd hxs (by simp)
  · have hchk' : st.A.any (fun e => e.bits == 0 && e.rhs == 1) = false :=
      eq_false_of_ne_true hchk
    have hno : ∀ e ∈ st.A, ¬(e.bits = 0 ∧ e.rhs = 1) := by
      intro e he hcon
      apply List.any_eq_false.mp hchk' e he
      rw [Bool.and_eq_true_iff]
      exact ⟨beq_iff_eq.mpr hcon.1, beq_iff_eq.mpr hcon.2⟩
    have hsome : solveGF2 eqs nVars
        = some (backSubSteps st.A st.pivCols nVars st.pivCols.length).1 := by
      rw [solveGF2_unfold, if_neg (by rw [hchk']; simp)]
    have hk : st.pivCols.length = st.pivRow := inv.lenP
    have hlenA : st.A.length = eqs.length := inv.lenA
    have hple : st.pivRow ≤ eqs.length := inv.pivLe
    have hrow01 : ∀ r, r < eqs.length → (getEq st.A r).rhs = 0 ∨ (getEq st.A r).rhs = 1 :=
      inv.rhs01 hr
    have hbits : ∀ r, r < eqs.length → (getEq st.A r).bits < 2 ^ nVars := inv.bitsLt hb
    have hzrow : ∀ r, st.pivRow ≤ r → r < eqs.length →
        (getEq st.A r).bits = 0 ∧ (getEq st.A r).rhs = 0 := by
      intro r h1 h2
      have hb0 : (getEq st.A r).bits = 0 := by
        apply Nat.eq_of_testBit_eq
        intro t
        rw [Nat.zero_testBit]
        by_cases htv : t < nVars
        · exact inv.below r h1 h2 t htv
        · exact testBit_false_of_lt_two_pow _ nVars t (hbits r h2) (by omega)
      refine ⟨hb0, ?_⟩
      rcases hrow01 r h2 with h | h
      · exact h
      · exact absurd ⟨hb0, h⟩ (hno _ (getD_mem_of_lt st.A r ⟨0, 0⟩ (by omega)))
    have hinj : ∀ l1 l2, l1 < st.pivCols.length → l2 < st.pivCols.length →
        st.pivCols.getD l1 0 = st.pivCols.getD l2 0 → l1 = l2 := by
      intro l1 l2 h1 h2 he
      by_contra hne
      rw [List.getD_eq_getElem _ _ h1, List.getD_eq_getElem _ _ h2] at he
      rcases Nat.lt_or_ge l1 l2 with hlt | hge
      · have := (List.pairwise_iff_getElem.mp inv.mono) l1 l2 h1 h2 hlt
        omega
      · have := (List.pairwise_iff_getElem.mp inv.mono) l2 l1 h2 h1 (by omega)
        omega
    have hchar := backSubSteps_bits_char st.A st.pivCols nVars
      (fun l hl r hrlt hrne => inv.offd l (by omega) r (by omega) hrne)
      (fun r hrk => hrow01 r (by omega))
      st.pivCols.length (Nat.le_refl _)
    have hchar0 : ∀ t,
        ((backSubSteps st.A st.pivCols nVars st.pivCols.length).2.testBit t = true ↔
          ∃ l, l < st.pivCols.length ∧ st.pivCols.getD l 0 = t
            ∧ (getEq st.A l).rhs = 1) := by
      intro t
      rw [hchar t]
      constructor
      · rintro ⟨l, _, h2, h3, h4⟩
        exact ⟨l, h2, h3, h4⟩
      · rintro ⟨l, h2, h3, h4⟩
        exact ⟨l, by omega, h2, h3, h4⟩
    have hsync := backSubSteps_fst_char st.A st.pivCols nVars inv.ub
      st.pivCols.length (Nat.le_refl _)
    have hXlt : (backSubSteps st.A st.pivCols nVars st.pivCols.length).2 < 2 ^ nVars :=
      lt_two_pow_of_high_bits_false _ nVars (fun t ht => hsync.2.1 t ht)
    have hXsat : satSys (backSubSteps st.A st.pivCols nVars st.pivCols.length).2 st.A := by
      rw [satSys_iff]
      intro r hrA
      by_cases hrk : r < st.pivCols.length
      · have hAX : (getEq st.A r).bits
            &&& (backSubSteps st.A st.pivCols nVars st.pivCols.length).2
            = if (getEq st.A r).rhs = 1 then 2 ^ (st.pivCols.getD r 0) else 0 := by
          apply Nat.eq_of_testBit_eq
          intro t
          rw [Nat.testBit_and]
          by_cases hrh : (getEq st.A r).rhs = 1
          · rw [if_pos hrh, Nat.testBit_two_pow]
            by_cases hxt : (backSubSteps st.A st.pivCols nVars st.pivCols.length).2.testBit t
              = true
            · obtain ⟨l, hl1, hl2, hl3⟩ := (hchar0 t).mp hxt
              by_cases hlr : l = r
              · subst hlr
                rw [hxt, Bool.and_true, ← hl2]
                rw [inv.diag _ (by omega)]
                simp
              · have hoff := inv.offd l (by omega) r (by omega) (fun h => hlr h.symm)
                rw [hl2] at hoff
                rw [hoff, Bool.false_and]
                have hne : st.pivCols.getD r 0 ≠ t := by
                  intro he
                  exact hlr (hinj l r hl1 hrk (by omega))
                exact (decide_eq_false hne).symm
            · rw [eq_false_of_ne_true hxt, Bool.and_false]
              have hne : st.pivCols.getD r 0 ≠ t := by
                intro he
                exact hxt ((hchar0 t).mpr ⟨r, hrk, he, hrh⟩)
              exact (decide_eq_false hne).symm
          · rw [if_neg hrh, Nat.zero_testBit]
            by_cases hxt : (backSubSteps st.A st.pivCols nVars st.pivCols.length).2.testBit t
              = true
            · obtain ⟨l, hl1, hl2, hl3⟩ := (hchar0 t).mp hxt
              have hlr : l ≠ r := by
                intro he
                subst he
                exact hrh hl3
              have hoff := inv.offd l (by omega) r (by omega) (fun h => hlr h.symm)
              rw [hl2] at hoff
              rw [hoff, Bool.false_and]
            · rw [eq_false_of_ne_true hxt, Bool.and_false]
        unfold satEq
        rw [hAX]
        rcases hrow01 r (by omega) with h0 | h1
        · rw [if_neg (by omega), bigintParity_zero, h0]
        · rw [if_pos h1, bigintParity_two_pow, h1]
      · obtain ⟨hb0, hr0⟩ := hzrow r (by omega) (by omega)
        unfold satEq
        rw [hb0, Nat.zero_and, bigintParity_zero, hr0]
    constructor
    · rw [hsome]
      constructor
      · intro h
        exact absurd h (by simp)
      · intro hcon
        exact absurd ⟨_, hXlt, (inv.solIff _).mpr hXsat⟩ hcon
    · intro xs hxs
      rw [hsome] at hxs
      have hxs' : xs = (backSubSteps st.A st.pivCols nVars st.pivCols.length).1 := by
        injection hxs.symm
      subst hxs'
      have hXeq : assignBits (backSubSteps st.A st.pivCols nVars st.pivCols.length).1
          = (backSubSteps st.A st.pivCols nVars st.pivCols.length).2 := by
        apply Nat.eq_of_testBit_eq
        intro t
        rw [assignBits_testBit]
        exact hsync.2.2 t
      rw [hXeq]
      exact (inv.solIff _).mpr hXsat

/-- C2: for every system of GF(2) equations over nVars variables (each
coefficient bitset below 2^nVars, each right-hand side a single bit),
solveGF2 returns none exactly when no assignment of the nVars variables
satisfies all equations, and any returned assignment satisfies every
input equation (the parity of the assignment restricted to the set
coefficient bits equals the right-hand side). -/
theorem solveGF2_correct (eqs : List Eqn) (nVars : Nat)
    (hb : ∀ e ∈ eqs, e.bits < 2 ^ nVars) (hr : ∀ e ∈ eqs, e.rhs = 0 ∨ e.rhs = 1) :
    (solveGF2 eqs nVars = none ↔ ¬ ∃ x, x < 2 ^ nVars ∧ satSys x eqs)
      ∧ ∀ xs, solveGF2 eqs nVars = some xs → satSys (assignBits xs) eqs :=
  solveGF2_spec eqs nVars hb hr

theorem solveGF2_correct_witness :
    (∀ e ∈ [Eqn.mk 1 1, Eqn.mk 3 0], e.bits < 2 ^ 2)
      ∧ (∀ e ∈ [Eqn.mk 1 1, Eqn.mk 3 0], e.rhs = 0 ∨ e.rhs = 1)
      ∧ ((solveGF2 [Eqn.mk 1 1, Eqn.mk 3 0] 2 = none
            ↔ ¬ ∃ x, x < 2 ^ 2 ∧ satSys x [Eqn.mk 1 1, Eqn.mk 3 0])
        ∧ ∀ xs, solveGF2 [Eqn.mk 1 1, Eqn.mk 3 0] 2 = some xs →
            satSys (assignBits xs) [Eqn.mk 1 1, Eqn.mk 3 0]) :=
  ⟨by decide, by decide, solveGF2_correct [Eqn.mk 1 1, Eqn.mk 3 0] 2 (by decide) (by decide)⟩

/-- C5: whenever solveGF2 returns an assignment, every variable whose
column never became a pivot column during elimination is false in the
returned assignment. -/
theorem solveGF2_free_vars (eqs : List Eqn) (nVars : Nat) (xs : List Bool)
    (hs : solveGF2 eqs nVars = some xs) (j : Nat) (hj : j < nVars)
    (hfree : j ∉ (gaussN eqs nVars).pivCols) : xs.getD j false = false := by
  rw [solveGF2_unfold] at hs
  by_cases hchk : (gaussN eqs nVars).A.any (fun e => e.bits == 0 && e.rhs == 1) = true
  · rw [if_pos hchk] at hs
    exact absurd hs (by simp)
  · rw [if_neg hchk] at hs
    have hxs : xs = (backSubSteps (gaussN eqs nVars).A (gaussN eqs nVars).pivCols nVars
        (gaussN eqs nVars).pivCols.length).1 := by
      injection hs.symm
    subst hxs
    exact backSubSteps_free _ _ _ _ (Nat.le_refl _) j hfree

theorem solveGF2_free_vars_witness :
    solveGF2 [Eqn.mk 1 1] 2 = some [true, false] ∧ 1 < 2
      ∧ 1 ∉ (gaussN [Eqn.mk 1 1] 2).pivCols
      ∧ [true, false].getD 1 false = false :=
  ⟨by decide, by decide, by decide,
    solveGF2_free_vars [Eqn.mk 1 1] 2 [true, false] (by decide) 1 (by decide) (by decide)⟩

/-! ## Characterising the built system (claim C4) -/

theorem or_lt_two_pow (a b n : Nat) (ha : a < 2 ^ n) (hb : b < 2 ^ n) :
    (a ||| b) < 2 ^ n := by
  apply lt_two_pow_of_high_bits_false
  intro t ht
  rw [Nat.testBit_or, testBit_false_of_lt_two_pow a n t ha ht,
    testBit_false_of_lt_two_pow b n t hb ht]
  rfl

theorem foldBits_testBit (g : Nat → Option Nat) (q : Nat → Prop) [DecidablePred q] :
    ∀ (cs : List Nat) (bs0 t : Nat),
      ((cs.foldl (fun bs c =>
          match g c with
          | some i => if q c then bs ||| (1 <<< i) else bs
          | none => bs) bs0).testBit t = true)
        ↔ (bs0.testBit t = true ∨ ∃ c ∈ cs, g c = some t ∧ q c) := by
  intro cs
  induction cs with
  | nil =>
    intro bs0 t
    simp
  | cons c cs ih =>
    intro bs0 t
    show ((cs.foldl _ (match g c with
        | some i => if q c then bs0 ||| (1 <<< i) else bs0
        | none => bs0)).testBit t = true) ↔ _
    rw [ih]
    cases hg : g c with
    | none =>
      have hred : (match (none : Option Nat) with
          | some i => if q c then bs0 ||| (1 <<< i) else bs0
          | none => bs0) = bs0 := rfl
      rw [hred]
      simp only [List.mem_cons]
      constructor
      · rintro (h | ⟨c', hc', h2⟩)
        · exact Or.inl h
        · exact Or.inr ⟨c', Or.inr hc', h2⟩
      · rintro (h | ⟨c', hc' | hc', h2⟩)
        · exact Or.inl h
        · subst hc'
          rw [hg] at h2
          exact absurd h2.1 (by simp)
        · exact Or.inr ⟨c', hc', h2⟩
    | some i =>
      have hred : (match (some i : Option Nat) with
          | some i => if q c then bs0 ||| (1 <<< i) else bs0
          | none => bs0) = if q c then bs0 ||| (1 <<< i) else bs0 := rfl
      rw [hred]
      by_cases hq : q c
      · rw [if_pos hq, Nat.one_shiftLeft]
        have hor : (bs0 ||| 2 ^ i).testBit t = (bs0.testBit t || decide (i = t)) := by
          rw [Nat.testBit_or, Nat.testBit_two_pow]
        rw [hor]
        simp only [List.mem_cons, Bool.or_eq_true, decide_eq_true_eq]
        constructor
        · rintro ((h | h) | ⟨c', hc', h2⟩)
          · exact Or.inl h
          · exact Or.inr ⟨c, Or.inl rfl, by rw [hg, h], hq⟩
          · exact Or.inr ⟨c', Or.inr hc', h2⟩
        · rintro (h | ⟨c', hc' | hc', h2⟩)
          · exact Or.inl (Or.inl h)
          · subst hc'
            rw [hg] at h2
            have : i = t := by injection h2.1
            exact Or.inl (Or.inr this)
          · exact Or.inr ⟨c', hc', h2⟩
      · rw [if_neg hq]
        simp only [List.mem_cons]
        constructor
        · rintro (h | ⟨c', hc', h2⟩)
          · exact Or.inl h
          · exact Or.inr ⟨c', Or.inr hc', h2⟩
        · rintro (h | ⟨c', hc' | hc', h2⟩)
          · exact Or.inl h
          · subst hc'
            exact absurd h2.2 hq
          · exact Or.inr ⟨c', hc', h2⟩

theorem foldBits_lt (g : Nat → Option Nat) (q : Nat → Prop) [DecidablePred q] (n : Nat) :
    ∀ (cs : List Nat) (bs0 : Nat), bs0 < 2 ^ n →
      (∀ c ∈ cs, ∀ i, g c = some i → i < n) →
      (cs.foldl (fun bs c =>
          match g c with
          | some i => if q c then bs ||| (1 <<< i) else bs
          | none => bs) bs0) < 2 ^ n := by
  intro cs
  induction cs with
  | nil =>
    intro bs0 h0 _
    exact h0
  | cons c cs ih =>
    intro bs0 h0 hg
    show (cs.foldl _ (match g c with
        | some i => if q c then bs0 ||| (1 <<< i) else bs0
        | none => bs0)) < 2 ^ n
    apply ih
    · cases hgc : g c with
      | none => exact h0
      | some i =>
        have hred : (match (some i : Option Nat) with
            | some i => if q c then bs0 ||| (1 <<< i) else bs0
            | none => bs0) = if q c then bs0 ||| (1 <<< i) else bs0 := rfl
        rw [hred]
        by_cases hq : q c
        · rw [if_pos hq, Nat.one_shiftLeft]
          apply or_lt_two_pow _ _ _ h0
          exact Nat.pow_lt_pow_right (by omega) (hg c (List.mem_cons_self _ _) i hgc)
        · rw [if_neg hq]
          exact h0
    · intro c' hc' i hi
      exact hg c' (List.mem_cons_of_mem _ hc') i hi

theorem getD_range (n t : Nat) (h : t < n) : (List.range n).getD t 0 = t := by
  rw [List.getD_eq_getElem _ _ (by simpa using h)]
  exact List.getElem_range t _

theorem flatMap_two_length {α : Type} (f : Nat → List α) (n : Nat)
    (hf : ∀ i, (f i).length = 2) : ((List.range n).flatMap f).length = 2 * n := by
  induction n with
  | zero => simp
  | succ n ih =>
    rw [List.range_succ, List.flatMap_append, List.length_append, ih,
      List.flatMap_cons, List.flatMap_nil, List.append_nil, hf n]
    omega

theorem flatMap_two_getD {α : Type} (f : Nat → List α) (n : Nat) (d : α)
    (hf : ∀ i, (f i).length = 2) :
    ∀ r k, r < n → k < 2 → ((List.range n).flatMap f).getD (2 * r + k) d = (f r).getD k d := by
  induction n with
  | zero =>
    intro r k hr _
    omega
  | succ n ih =>
    intro r k hr hk
    rw [List.range_succ, List.flatMap_append, List.flatMap_cons, List.flatMap_nil,
      List.append_nil]
    by_cases hrn : r < n
    · rw [List.getD_append _ _ _ _ (by rw [flatMap_two_length f n hf]; omega)]
      exact ih r k hrn hk
    · have hreq : r = n := by omega
      subst hreq
      rw [List.getD_append_right _ _ _ _ (by rw [flatMap_two_length f r hf]; omega)]
      rw [flatMap_two_length f r hf]
      have harith : 2 * r + k - 2 * r = k := by omega
      rw [harith]

theorem fillEqs_length (b : Board) : (fillEqs b).length = 2 * b.rows + 2 * b.cols := by
  unfold fillEqs buildGF4ZeroSystem
  rw [List.length_append, flatMap_two_length _ _ (fun i => by simp),
    flatMap_two_length _ _ (fun i => by simp)]

theorem fillInternalRow_getD (b : Board) (r : Nat) (hr : r < b.rows) :
    (fillInternalRow b).getD r 0 = (zeroBorderCells b).gf4RowSum r := by
  unfold fillInternalRow
  rw [getD_map_fn _ _ r 0 0 (by simpa using hr), getD_range _ _ hr]

theorem fillInternalCol_getD (b : Board) (c : Nat) (hc : c < b.cols) :
    (fillInternalCol b).getD c 0 = (zeroBorderCells b).gf4ColSum c := by
  unfold fillInternalCol
  rw [getD_map_fn _ _ c 0 0 (by simpa using hc), getD_range _ _ hc]

theorem fillEqs_getD_row (b : Board) (r k : Nat) (hr : r < b.rows) (hk : k < 2) :
    (fillEqs b).getD (2 * r + k) ⟨0, 0⟩
      = ⟨rowEqBits b.rows b.cols (fillVars b) r k,
        (fillInternalRow b).getD r 0 >>> k &&& 1⟩ := by
  unfold fillEqs buildGF4ZeroSystem
  rw [List.getD_append _ _ _ _ (by rw [flatMap_two_length _ _ (fun i => by simp)]; omega)]
  rw [flatMap_two_getD _ _ _ (fun i => by simp) r k hr hk]
  rw [getD_map_fn _ (List.range 2) k 0 (⟨0, 0⟩ : Eqn) (by simpa using hk), getD_range _ _ hk]

theorem fillEqs_getD_col (b : Board) (c k : Nat) (hc : c < b.cols) (hk : k < 2) :
    (fillEqs b).getD (2 * b.rows + (2 * c + k)) ⟨0, 0⟩
      = ⟨colEqBits b.rows b.cols (fillVars b) c k,
        (fillInternalCol b).getD c 0 >>> k &&& 1⟩ := by
  unfold fillEqs buildGF4ZeroSystem
  rw [List.getD_append_right _ _ _ _
    (by rw [flatMap_two_length _ _ (fun i => by simp)]; omega)]
  rw [flatMap_two_length _ _ (fun i => by simp)]
  have harith : 2 * b.rows + (2 * c + k) - 2 * b.rows = 2 * c + k := by omega
  rw [harith]
  rw [flatMap_two_getD _ _ _ (fun i => by simp) c k hc hk]
  rw [getD_map_fn _ (List.range 2) k 0 (⟨0, 0⟩ : Eqn) (by simpa using hk), getD_range _ _ hk]

theorem rowEqBits_testBit (rows cols : Nat) (vars : List (Nat × Nat)) (r k i : Nat) :
    ((rowEqBits rows cols vars r k).testBit i = true ↔
      ∃ c ∈ List.range cols, rowCoefIdx rows cols vars r c = some i
        ∧ (gf4Pow (r + c)) >>> k &&& 1 = 1) := by
  have h := foldBits_testBit (fun c => rowCoefIdx rows cols vars r c)
    (fun c => (gf4Pow (r + c)) >>> k &&& 1 = 1) (List.range cols) 0 i
  constructor
  · intro ht
    rcases h.mp ht with hfalse | hex
    · exact absurd hfalse (by simp [Nat.zero_testBit])
    · exact hex
  · intro hex
    exact h.mpr (Or.inr hex)

theorem colEqBits_testBit (rows cols : Nat) (vars : List (Nat × Nat)) (c k i : Nat) :
    ((colEqBits rows cols vars c k).testBit i = true ↔
      ∃ r ∈ List.range rows, rowCoefIdx rows cols vars r c = some i
        ∧ (gf4Pow (r + c)) >>> k &&& 1 = 1) := by
  have h := foldBits_testBit (fun r => rowCoefIdx rows cols vars r c)
    (fun r => (gf4Pow (r + c)) >>> k &&& 1 = 1) (List.range rows) 0 i
  constructor
  · intro ht
    rcases h.mp ht with hfalse | hex
    · exact absurd hfalse (by simp [Nat.zero_testBit])
    · exact hex
  · intro hex
    exact h.mpr (Or.inr hex)

theorem rowCoefIdx_some_iff (rows cols : Nat) (r c i : Nat) :
    rowCoefIdx rows cols (borderVars rows cols) r c = some i ↔
      ((r = 0 ∨ r = rows - 1 ∨ c = 0 ∨ c = cols - 1)
        ∧ i < (borderVars rows cols).length
        ∧ (borderVars rows cols).getD i (0, 0) = (r, c)) := by
  unfold rowCoefIdx
  by_cases hcond : r = 0 ∨ r = rows - 1 ∨ c = 0 ∨ c = cols - 1
  · rw [if_pos hcond, idxOfVar_some_iff _ _ _ _ (borderVars_nodup rows cols)]
    tauto
  · rw [if_neg hcond]
    simp [hcond]

/-- C4: on an analysis board with at least 3 rows and columns, the built
GF(2) system has exactly 2*rows + 2*cols equations, ordered as bit 0 and
bit 1 of each row constraint followed by bit 0 and bit 1 of each column
constraint; the equation for row r and bit k has coefficient bit i set
iff border variable i lies in row r and bit k of its weight
omega^(r + c_i) is set, and its right-hand side is bit k of the residual
(border-zeroed) row sum; symmetrically for columns. -/
theorem buildGF4ZeroSystem_spec (b : Board) (ha : b.analysis = true)
    (hr3 : 3 ≤ b.rows) (hc3 : 3 ≤ b.cols) :
    (fillEqs b).length = 2 * b.rows + 2 * b.cols
      ∧ (∀ r k, r < b.rows → k < 2 →
          (fillEqs b).getD (2 * r + k) ⟨0, 0⟩
            = ⟨rowEqBits b.rows b.cols (fillVars b) r k,
               (zeroBorderCells b).gf4RowSum r >>> k &&& 1⟩)
      ∧ (∀ c k, c < b.cols → k < 2 →
          (fillEqs b).getD (2 * b.rows + (2 * c + k)) ⟨0, 0⟩
            = ⟨colEqBits b.rows b.cols (fillVars b) c k,
               (zeroBorderCells b).gf4ColSum c >>> k &&& 1⟩)
      ∧ (∀ r k i, ((rowEqBits b.rows b.cols (fillVars b) r k).testBit i = true ↔
            i < (fillVars b).length ∧ ((fillVars b).getD i (0, 0)).1 = r
              ∧ (gf4Pow (r + ((fillVars b).getD i (0, 0)).2)) >>> k &&& 1 = 1))
      ∧ (∀ c k i, ((colEqBits b.rows b.cols (fillVars b) c k).testBit i = true ↔
            i < (fillVars b).length ∧ ((fillVars b).getD i (0, 0)).2 = c
              ∧ (gf4Pow (((fillVars b).getD i (0, 0)).1 + c)) >>> k &&& 1 = 1)) := by
  refine ⟨fillEqs_length b, ?_, ?_, ?_, ?_⟩
  · intro r k hrlt hk
    rw [fillEqs_getD_row b r k hrlt hk, fillInternalRow_getD b r hrlt]
  · intro c k hclt hk
    rw [fillEqs_getD_col b c k hclt hk, fillInternalCol_getD b c hclt]
  · intro r k i
    rw [rowEqBits_testBit]
    constructor
    · rintro ⟨c, _, hcoef, hw⟩
      obtain ⟨hcond, hlen, hget⟩ := (rowCoefIdx_some_iff b.rows b.cols r c i).mp hcoef
      have hget' : (fillVars b).getD i (0, 0) = (r, c) := hget
      have hlen' : i < (fillVars b).length := hlen
      have h1 : ((fillVars b).getD i (0, 0)).1 = r := by rw [hget']
      have h2 : ((fillVars b).getD i (0, 0)).2 = c := by rw [hget']
      refine ⟨hlen', h1, ?_⟩
      rw [h2]
      exact hw
    · rintro ⟨hlen, h1, hw⟩
      have hget : (fillVars b).getD i (0, 0) = (r, ((fillVars b).getD i (0, 0)).2) := by
        rw [← h1]
      have hmem : (r, ((fillVars b).getD i (0, 0)).2) ∈ fillVars b :=
        hget ▸ getD_mem_of_lt _ i (0, 0) hlen
      obtain ⟨hrlt, hclt, hcond⟩ := (mem_fillVars b r _).mp hmem
      refine ⟨((fillVars b).getD i (0, 0)).2, List.mem_range.mpr hclt, ?_, hw⟩
      exact (rowCoefIdx_some_iff b.rows b.cols r _ i).mpr ⟨hcond, hlen, hget⟩
  · intro c k i
    rw [colEqBits_testBit]
    constructor
    · rintro ⟨r, _, hcoef, hw⟩
      obtain ⟨hcond, hlen, hget⟩ := (rowCoefIdx_some_iff b.rows b.cols r c i).mp hcoef
      have hget' : (fillVars b).getD i (0, 0) = (r, c) := hget
      have hlen' : i < (fillVars b).length := hlen
      have h1 : ((fillVars b).getD i (0, 0)).1 = r := by rw [hget']
      have h2 : ((fillVars b).getD i (0, 0)).2 = c := by rw [hget']
      refine ⟨hlen', h2, ?_⟩
      rw [h1]
      exact hw
    · rintro ⟨hlen, h2, hw⟩
      have hget : (fillVars b).getD i (0, 0) = (((fillVars b).getD i (0, 0)).1, c) := by
        rw [← h2]
      have hmem : (((fillVars b).getD i (0, 0)).1, c) ∈ fillVars b :=
        hget ▸ getD_mem_of_lt _ i (0, 0) hlen
      obtain ⟨hrlt, hclt, hcond⟩ := (mem_fillVars b _ c).mp hmem
      refine ⟨((fillVars b).getD i (0, 0)).1, List.mem_range.mpr hrlt, ?_, hw⟩
      exact (rowCoefIdx_some_iff b.rows b.cols _ c i).mpr ⟨hcond, hlen, hget⟩

theorem buildGF4ZeroSystem_spec_witness :
    (Board.mk 3 3 true fun r c => r == 1 && c == 1).analysis = true
      ∧ 3 ≤ (Board.mk 3 3 true fun r c => r == 1 && c == 1).rows
      ∧ 3 ≤ (Board.mk 3 3 true fun r c => r == 1 && c == 1).cols
      ∧ ((fillEqs (Board.mk 3 3 true fun r c => r == 1 && c == 1)).length
            = 2 * (Board.mk 3 3 true fun r c => r == 1 && c == 1).rows
              + 2 * (Board.mk 3 3 true fun r c => r == 1 && c == 1).cols
        ∧ (∀ r k, r < (Board.mk 3 3 true fun r c => r == 1 && c == 1).rows → k < 2 →
            (fillEqs (Board.mk 3 3 true fun r c => r == 1 && c == 1)).getD (2 * r + k) ⟨0, 0⟩
              = ⟨rowEqBits 3 3 (fillVars (Board.mk 3 3 true fun r c => r == 1 && c == 1)) r k,
                 (zeroBorderCells (Board.mk 3 3 true fun r c => r == 1 && c == 1)).gf4RowSum r
                   >>> k &&& 1⟩)
        ∧ (∀ c k, c < (Board.mk 3 3 true fun r c => r == 1 && c == 1).cols → k < 2 →
            (fillEqs (Board.mk 3 3 true fun r c => r == 1 && c == 1)).getD
                (2 * (Board.mk 3 3 true fun r c => r == 1 && c == 1).rows + (2 * c + k)) ⟨0, 0⟩
              = ⟨colEqBits 3 3 (fillVars (Board.mk 3 3 true fun r c => r == 1 && c == 1)) c k,
                 (zeroBorderCells (Board.mk 3 3 true fun r c => r == 1 && c == 1)).gf4ColSum c
                   >>> k &&& 1⟩)
        ∧ (∀ r k i,
            ((rowEqBits 3 3 (fillVars (Board.mk 3 3 true fun r c => r == 1 && c == 1)) r k).testBit i
                = true ↔
              i < (fillVars (Board.mk 3 3 true fun r c => r == 1 && c == 1)).length
                ∧ ((fillVars (Board.mk 3 3 true fun r c => r == 1 && c == 1)).getD i (0, 0)).1 = r
                ∧ (gf4Pow (r + ((fillVars (Board.mk 3 3 true fun r c => r == 1 && c == 1)).getD
                    i (0, 0)).2)) >>> k &&& 1 = 1))
        ∧ (∀ c k i,
            ((colEqBits 3 3 (fillVars (Board.mk 3 3 true fun r c => r == 1 && c == 1)) c k).testBit i
                = true ↔
              i < (fillVars (Board.mk 3 3 true fun r c => r == 1 && c == 1)).length
                ∧ ((fillVars (Board.mk 3 3 true fun r c => r == 1 && c == 1)).getD i (0, 0)).2 = c
                ∧ (gf4Pow (((fillVars (Board.mk 3 3 true fun r c => r == 1 && c == 1)).getD
                    i (0, 0)).1 + c)) >>> k &&& 1 = 1))) :=
  ⟨rfl, by decide, by decide,
    buildGF4ZeroSystem_spec (Board.mk 3 3 true fun r c => r == 1 && c == 1)
      rfl (by decide) (by decide)⟩

/-! ## Bit-level accounting for the zero-sum proof (claim C1) -/

/-- Bit k of a natural number, as a 0/1 natural. -/
def bitN (x k : Nat) : Nat := if x.testBit k then 1 else 0

theorem bitN_xor (x y k : Nat) : bitN (x ^^^ y) k = bitN x k ^^^ bitN y k := by
  unfold bitN
  rw [Nat.testBit_xor]
  cases hx : x.testBit k <;> cases hy : y.testBit k <;> rfl

theorem bitN_eq_shift (x k : Nat) : x >>> k &&& 1 = bitN x k := by
  unfold bitN
  by_cases h : x.testBit k
  · rw [if_pos h]
    exact (shift_and_one_eq_testBit x k).mpr h
  · rw [if_neg h]
    have h2 : x >>> k &&& 1 < 2 := by
      rw [Nat.and_one_is_mod]
      exact Nat.mod_lt _ (by omega)
    have h3 : ¬(x >>> k &&& 1 = 1) := fun he => h ((shift_and_one_eq_testBit x k).mp he)
    omega

theorem bitN_one_of (w k : Nat) (hw : w >>> k &&& 1 = 1) : bitN w k = 1 := by
  rw [← bitN_eq_shift]
  exact hw

theorem bitN_zero_of (w k : Nat) (hw : ¬(w >>> k &&& 1 = 1)) : bitN w k = 0 := by
  rw [← bitN_eq_shift]
  have h2 : w >>> k &&& 1 < 2 := by
    rw [Nat.and_one_is_mod]
    exact Nat.mod_lt _ (by omega)
  omega

theorem xor_rotate (a b p : Nat) : (a ^^^ p) ^^^ b = (a ^^^ b) ^^^ p := by
  rw [Nat.xor_assoc, Nat.xor_assoc, Nat.xor_comm p b]

theorem lineFold_pair (X k : Nat) :
    ∀ (cs : List Nat) (cellAt zeroAt : Nat → Bool) (w : Nat → Nat)
      (gIdx : Nat → Option Nat) (bs s s' : Nat),
      cs.Nodup →
      (∀ c ∈ cs, gIdx c = none → cellAt c = zeroAt c) →
      (∀ c ∈ cs, ∀ i, gIdx c = some i → zeroAt c = false ∧ cellAt c = X.testBit i
        ∧ bs.testBit i = false ∧ ∀ c' ∈ cs, gIdx c' = some i → c' = c) →
      bitN s' k = bitN s k ^^^ bigintParity (bs &&& X) →
      bitN (cs.foldl (fun t c => if cellAt c then t ^^^ w c else t) s') k
        = bitN (cs.foldl (fun t c => if zeroAt c then t ^^^ w c else t) s) k
          ^^^ bigintParity ((cs.foldl (fun t c =>
              match gIdx c with
              | some i => if w c >>> k &&& 1 = 1 then t ||| (1 <<< i) else t
              | none => t) bs) &&& X) := by
  intro cs
  induction cs with
  | nil =>
    intro cellAt zeroAt w gIdx bs s s' _ _ _ hinv
    exact hinv
  | cons c t ih =>
    intro cellAt zeroAt w gIdx bs s s' hnd hnone hsome hinv
    have hndt : t.Nodup := (List.nodup_cons.mp hnd).2
    have hcnt : c ∉ t := (List.nodup_cons.mp hnd).1
    cases hg : gIdx c with
    | none =>
      have hcz : cellAt c = zeroAt c := hnone c (List.mem_cons_self _ _) hg
      simp only [List.foldl_cons, hg]
      apply ih cellAt zeroAt w gIdx bs _ _ hndt
        (fun c' hc' => hnone c' (List.mem_cons_of_mem _ hc'))
        (fun c' hc' i hi =>
          ⟨(hsome c' (List.mem_cons_of_mem _ hc') i hi).1,
           (hsome c' (List.mem_cons_of_mem _ hc') i hi).2.1,
           (hsome c' (List.mem_cons_of_mem _ hc') i hi).2.2.1,
           fun c'' hc'' hi'' =>
             (hsome c' (List.mem_cons_of_mem _ hc') i hi).2.2.2 c''
               (List.mem_cons_of_mem _ hc'') hi''⟩)
      rw [hcz]
      by_cases hzc : zeroAt c = true
      · rw [if_pos hzc, if_pos hzc, bitN_xor, bitN_xor, hinv, xor_rotate]
      · rw [if_neg hzc, if_neg hzc]
        exact hinv
    | some i =>
      obtain ⟨hz, hcell, hfresh, huniq⟩ := hsome c (List.mem_cons_self _ _) i hg
      have hzs : (if zeroAt c = true then s ^^^ w c else s) = s := by
        rw [hz]
        simp
      simp only [List.foldl_cons, hg]
      rw [hzs]
      by_cases hw : w c >>> k &&& 1 = 1
      · rw [if_pos hw]
        apply ih cellAt zeroAt w gIdx (bs ||| (1 <<< i)) _ _ hndt
          (fun c' hc' => hnone c' (List.mem_cons_of_mem _ hc'))
          ?_
        · rw [Nat.one_shiftLeft, bigintParity_and_or_two_pow bs X i hfresh, hcell]
          cases hX : X.testBit i
          · rw [if_neg (by simp), hinv]
            simp
          · rw [if_pos rfl, bitN_xor, hinv, bitN_one_of _ _ hw]
            simp [Nat.xor_assoc]
        · intro c' hc' i' hi'
          obtain ⟨h1, h2, h3, h4⟩ := hsome c' (List.mem_cons_of_mem _ hc') i' hi'
          refine ⟨h1, h2, ?_, fun c'' hc'' hi'' => h4 c'' (List.mem_cons_of_mem _ hc'') hi''⟩
          rw [Nat.one_shiftLeft, Nat.testBit_or, h3, Nat.testBit_two_pow, Bool.false_or]
          apply decide_eq_false
          intro hii
          subst hii
          exact hcnt ((huniq c' (List.mem_cons_of_mem _ hc') hi') ▸ hc')
      · rw [if_neg hw]
        apply ih cellAt zeroAt w gIdx bs _ _ hndt
          (fun c' hc' => hnone c' (List.mem_cons_of_mem _ hc'))
          (fun c' hc' i' hi' =>
            ⟨(hsome c' (List.mem_cons_of_mem _ hc') i' hi').1,
             (hsome c' (List.mem_cons_of_mem _ hc') i' hi').2.1,
             (hsome c' (List.mem_cons_of_mem _ hc') i' hi').2.2.1,
             fun c'' hc'' hi'' =>
               (hsome c' (List.mem_cons_of_mem _ hc') i' hi').2.2.2 c''
                 (List.mem_cons_of_mem _ hc'') hi''⟩)
        rw [hcell]
        cases hX : X.testBit i
        · rw [if_neg (by simp)]
          exact hinv
        · rw [if_pos rfl, bitN_xor, hinv, bitN_zero_of _ _ hw, Nat.xor_zero]

theorem rowCoefIdx_some_lt (rows cols : Nat) (vars : List (Nat × Nat)) (r c i : Nat)
    (h : rowCoefIdx rows cols vars r c = some i) : i < vars.length := by
  unfold rowCoefIdx at h
  by_cases hc : r = 0 ∨ r = rows - 1 ∨ c = 0 ∨ c = cols - 1
  · rw [if_pos hc] at h
    exact (idxOfVar_some_lt vars r c i h).1
  · rw [if_neg hc] at h
    exact absurd h (by simp)

theorem rowEqBits_lt (rows cols : Nat) (vars : List (Nat × Nat)) (r k : Nat) :
    rowEqBits rows cols vars r k < 2 ^ vars.length :=
  foldBits_lt (fun c => rowCoefIdx rows cols vars r c)
    (fun c => gf4Pow (r + c) >>> k &&& 1 = 1) vars.length (List.range cols) 0
    (by positivity) (fun c _ i hi => rowCoefIdx_some_lt rows cols vars r c i hi)

theorem colEqBits_lt (rows cols : Nat) (vars : List (Nat × Nat)) (c k : Nat) :
    colEqBits rows cols vars c k < 2 ^ vars.length :=
  foldBits_lt (fun r => rowCoefIdx rows cols vars r c)
    (fun r => gf4Pow (r + c) >>> k &&& 1 = 1) vars.length (List.range rows) 0
    (by positivity) (fun r _ i hi => rowCoefIdx_some_lt rows cols vars r c i hi)

theorem shift_and_one_01 (x k : Nat) : x >>> k &&& 1 = 0 ∨ x >>> k &&& 1 = 1 := by
  rw [Nat.and_one_is_mod]
  omega

theorem fillEqs_wf (b : Board) :
    (∀ e ∈ fillEqs b, e.bits < 2 ^ (fillVars b).length)
      ∧ ∀ e ∈ fillEqs b, e.rhs = 0 ∨ e.rhs = 1 := by
  have hchar : ∀ e ∈ fillEqs b,
      (∃ r k, e = ⟨rowEqBits b.rows b.cols (fillVars b) r k,
        (fillInternalRow b).getD r 0 >>> k &&& 1⟩)
      ∨ ∃ c k, e = ⟨colEqBits b.rows b.cols (fillVars b) c k,
        (fillInternalCol b).getD c 0 >>> k &&& 1⟩ := by
    intro e he
    unfold fillEqs buildGF4ZeroSystem at he
    rcases List.mem_append.mp he with h | h
    · rw [List.mem_flatMap] at h
      obtain ⟨r, _, hm⟩ := h
      rw [List.mem_map] at hm
      obtain ⟨k, _, he2⟩ := hm
      exact Or.inl ⟨r, k, he2.symm⟩
    · rw [List.mem_flatMap] at h
      obtain ⟨c, _, hm⟩ := h
      rw [List.mem_map] at hm
      obtain ⟨k, _, he2⟩ := hm
      exact Or.inr ⟨c, k, he2.symm⟩
  constructor
  · intro e he
    rcases hchar e he with ⟨r, k, rfl⟩ | ⟨c, k, rfl⟩
    · exact rowEqBits_lt b.rows b.cols (fillVars b) r k
    · exact colEqBits_lt b.rows b.cols (fillVars b) c k
  · intro e he
    rcases hchar e he with ⟨r, k, rfl⟩ | ⟨c, k, rfl⟩
    · exact shift_and_one_01 _ k
    · exact shift_and_one_01 _ k

theorem solveGF2_some_length (eqs : List Eqn) (nVars : Nat) (xs : List Bool)
    (hs : solveGF2 eqs nVars = some xs) : xs.length = nVars := by
  rw [solveGF2_unfold] at hs
  by_cases hchk : (gaussN eqs nVars).A.any (fun e => e.bits == 0 && e.rhs == 1) = true
  · rw [if_pos hchk] at hs
    exact absurd hs (by simp)
  · rw [if_neg hchk] at hs
    have hxs : xs = (backSubSteps (gaussN eqs nVars).A (gaussN eqs nVars).pivCols nVars
        (gaussN eqs nVars).pivCols.length).1 := by
      injection hs.symm
    subst hxs
    exact (backSubSteps_fst_char _ _ _ (gaussN_inv eqs nVars nVars).ub _ (Nat.le_refl _)).1

theorem gf4Pow_lt (n : Int) : gf4Pow n < 4 := by
  rw [gf4Pow_emod_form]
  split_ifs <;> decide

theorem lineFold_lt (at? : Nat → Bool) (w : Nat → Nat) (hw : ∀ c, w c < 4) :
    ∀ (cs : List Nat) (s : Nat), s < 4 →
      cs.foldl (fun t c => if at? c then t ^^^ w c else t) s < 4 := by
  intro cs
  induction cs with
  | nil =>
    intro s hs
    exact hs
  | cons c t ih =>
    intro s hs
    rw [List.foldl_cons]
    apply ih
    by_cases hc : at? c = true
    · rw [if_pos hc]
      exact Nat.xor_lt_two_pow (n := 2) hs (hw c)
    · rw [if_neg hc]
      exact hs

theorem gf4RowSum_lt (b : Board) (r : Nat) : b.gf4RowSum r < 4 :=
  lineFold_lt (fun c => b.cells r c) (fun c => gf4Pow (r + c))
    (fun c => gf4Pow_lt _) (List.range b.cols) G0 (by decide)

theorem gf4ColSum_lt (b : Board) (c : Nat) : b.gf4ColSum c < 4 :=
  lineFold_lt (fun r => b.cells r c) (fun r => gf4Pow (r + c))
    (fun r => gf4Pow_lt _) (List.range b.rows) G0 (by decide)

theorem eq_zero_of_lt4_bits (x : Nat) (hx : x < 4) (h0 : x.testBit 0 = false)
    (h1 : x.testBit 1 = false) : x = 0 := by
  apply Nat.eq_of_testBit_eq
  intro t
  rw [Nat.zero_testBit]
  cases t with
  | zero => exact h0
  | succ t' =>
    cases t' with
    | zero => exact h1
    | succ t'' => exact testBit_false_of_lt_two_pow x 2 (t'' + 2) hx (by omega)

theorem testBit_of_bitN_zero (x k : Nat) (h : bitN x k = 0) : x.testBit k = false := by
  unfold bitN at h
  by_cases hx : x.testBit k
  · rw [if_pos hx] at h
    omega
  · exact eq_false_of_ne_true hx

theorem row_eq_mem (b : Board) (r k : Nat) (hr : r < b.rows) (hk : k < 2) :
    (⟨rowEqBits b.rows b.cols (fillVars b) r k,
      (fillInternalRow b).getD r 0 >>> k &&& 1⟩ : Eqn) ∈ fillEqs b := by
  rw [← fillEqs_getD_row b r k hr hk]
  apply getD_mem_of_lt
  rw [fillEqs_length]
  omega

theorem col_eq_mem (b : Board) (c k : Nat) (hc : c < b.cols) (hk : k < 2) :
    (⟨colEqBits b.rows b.cols (fillVars b) c k,
      (fillInternalCol b).getD c 0 >>> k &&& 1⟩ : Eqn) ∈ fillEqs b := by
  rw [← fillEqs_getD_col b c k hc hk]
  apply getD_mem_of_lt
  rw [fillEqs_length]
  omega

theorem write_row_bit (b : Board) (sol : List Bool)
    (hlen : sol.length = (fillVars b).length) (r k : Nat) :
    bitN (Board.gf4RowSum
        { b with cells := writeCells (zeroBorderCells b).cells ((fillVars b).zip sol) } r) k
      = bitN ((zeroBorderCells b).gf4RowSum r) k
        ^^^ bigintParity (rowEqBits b.rows b.cols (fillVars b) r k &&& assignBits sol) := by
  have hnone : ∀ c ∈ List.range b.cols,
      rowCoefIdx b.rows b.cols (fillVars b) r c = none →
      writeCells (zeroBorderCells b).cells ((fillVars b).zip sol) r c
        = (zeroBorderCells b).cells r c := by
    intro c _ hg
    have hnm : (r, c) ∉ fillVars b := by
      intro hm
      obtain ⟨hrlt, hclt, hcond⟩ := (mem_fillVars b r c).mp hm
      unfold rowCoefIdx at hg
      rw [if_pos hcond, idxOfVar_none_iff] at hg
      exact hg hm
    rw [writeCells_zip_not_mem _ _ _ _ _ hnm]
  have hsome : ∀ c ∈ List.range b.cols, ∀ i,
      rowCoefIdx b.rows b.cols (fillVars b) r c = some i →
      (zeroBorderCells b).cells r c = false
        ∧ writeCells (zeroBorderCells b).cells ((fillVars b).zip sol) r c
            = (assignBits sol).testBit i
        ∧ (0 : Nat).testBit i = false
        ∧ ∀ c' ∈ List.range b.cols,
            rowCoefIdx b.rows b.cols (fillVars b) r c' = some i → c' = c := by
    intro c _ i hg
    obtain ⟨hcond, hlen', hget⟩ := (rowCoefIdx_some_iff b.rows b.cols r c i).mp hg
    have hgetF : (fillVars b).getD i (0, 0) = (r, c) := hget
    have hlenF : i < (fillVars b).length := hlen'
    have hmem : (r, c) ∈ fillVars b := hgetF ▸ getD_mem_of_lt _ i (0, 0) hlenF
    refine ⟨?_, ?_, Nat.zero_testBit i, ?_⟩
    · rw [zeroBorderCells_cells, if_pos hmem]
    · rw [writeCells_zip_getD _ _ _ i r c (fillVars_nodup b) hlenF (by omega) hgetF,
        assignBits_testBit]
    · intro c' _ hg'
      obtain ⟨_, _, hget2⟩ := (rowCoefIdx_some_iff b.rows b.cols r c' i).mp hg'
      have hpair : ((r, c) : Nat × Nat) = (r, c') := by rw [← hget, ← hget2]
      have := congrArg Prod.snd hpair
      simpa using this.symm
  have hinv : bitN (0 : Nat) k = bitN (0 : Nat) k ^^^ bigintParity (0 &&& assignBits sol) := by
    rw [Nat.zero_and, bigintParity_zero, Nat.xor_zero]
  exact lineFold_pair (assignBits sol) k (List.range b.cols)
    (fun c => writeCells (zeroBorderCells b).cells ((fillVars b).zip sol) r c)
    (fun c => (zeroBorderCells b).cells r c)
    (fun c => gf4Pow (r + c))
    (fun c => rowCoefIdx b.rows b.cols (fillVars b) r c)
    0 0 0 (List.nodup_range b.cols) hnone hsome hinv

theorem write_col_bit (b : Board) (sol : List Bool)
    (hlen : sol.length = (fillVars b).length) (c k : Nat) :
    bitN (Board.gf4ColSum
        { b with cells := writeCells (zeroBorderCells b).cells ((fillVars b).zip sol) } c) k
      = bitN ((zeroBorderCells b).gf4ColSum c) k
        ^^^ bigintParity (colEqBits b.rows b.cols (fillVars b) c k &&& assignBits sol) := by
  have hnone : ∀ r ∈ List.range b.rows,
      rowCoefIdx b.rows b.cols (fillVars b) r c = none →
      writeCells (zeroBorderCells b).cells ((fillVars b).zip sol) r c
        = (zeroBorderCells b).cells r c := by
    intro r _ hg
    have hnm : (r, c) ∉ fillVars b := by
      intro hm
      obtain ⟨hrlt, hclt, hcond⟩ := (mem_fillVars b r c).mp hm
      unfold rowCoefIdx at hg
      rw [if_pos hcond, idxOfVar_none_iff] at hg
      exact hg hm
    rw [writeCells_zip_not_mem _ _ _ _ _ hnm]
  have hsome : ∀ r ∈ List.range b.rows, ∀ i,
      rowCoefIdx b.rows b.cols (fillVars b) r c = some i →
      (zeroBorderCells b).cells r c = false
        ∧ writeCells (zeroBorderCells b).cells ((fillVars b).zip sol) r c
            = (assignBits sol).testBit i
        ∧ (0 : Nat).testBit i = false
        ∧ ∀ r' ∈ List.range b.rows,
            rowCoefIdx b.rows b.cols (fillVars b) r' c = some i → r' = r := by
    intro r _ i hg
    obtain ⟨hcond, hlen', hget⟩ := (rowCoefIdx_some_iff b.rows b.cols r c i).mp hg
    have hgetF : (fillVars b).getD i (0, 0) = (r, c) := hget
    have hlenF : i < (fillVars b).length := hlen'
    have hmem : (r, c) ∈ fillVars b := hgetF ▸ getD_mem_of_lt _ i (0, 0) hlenF
    refine ⟨?_, ?_, Nat.zero_testBit i, ?_⟩
    · rw [zeroBorderCells_cells, if_pos hmem]
    · rw [writeCells_zip_getD _ _ _ i r c (fillVars_nodup b) hlenF (by omega) hgetF,
        assignBits_testBit]
    · intro r' _ hg'
      obtain ⟨_, _, hget2⟩ := (rowCoefIdx_some_iff b.rows b.cols r' c i).mp hg'
      have hpair : ((r, c) : Nat × Nat) = (r', c) := by rw [← hget, ← hget2]
      have := congrArg Prod.fst hpair
      simpa using this.symm
  have hinv : bitN (0 : Nat) k = bitN (0 : Nat) k ^^^ bigintParity (0 &&& assignBits sol) := by
    rw [Nat.zero_and, bigintParity_zero, Nat.xor_zero]
  exact lineFold_pair (assignBits sol) k (List.range b.rows)
    (fun r => writeCells (zeroBorderCells b).cells ((fillVars b).zip sol) r c)
    (fun r => (zeroBorderCells b).cells r c)
    (fun r => gf4Pow (r + c))
    (fun r => rowCoefIdx b.rows b.cols (fillVars b) r c)
    0 0 0 (List.nodup_range b.rows) hnone hsome hinv

/-- C1: on an analysis board with at least 3 rows and 3 columns, if the
internal GF(2) solve succeeds and its assignment is written into the
border, every GF(4) weighted row sum and column sum of the resulting
board is zero. -/
theorem fill_zero_sums (b : Board) (ha : b.analysis = true) (hrows : 3 ≤ b.rows)
    (hcols : 3 ≤ b.cols) (sol : List Bool)
    (hs : solveGF2 (fillEqs b) (fillVars b).length = some sol) :
    (∀ r, r < b.rows → (fillOuterToZeroGF4 b).gf4RowSum r = 0)
      ∧ ∀ c, c < b.cols → (fillOuterToZeroGF4 b).gf4ColSum c = 0 := by
  have hwf := fillEqs_wf b
  have hsat := (solveGF2_spec (fillEqs b) (fillVars b).length hwf.1 hwf.2).2 sol hs
  have hlen := solveGF2_some_length _ _ _ hs
  rw [fill_eq_write b ha hrows hcols sol hs]
  constructor
  · intro r hrlt
    apply eq_zero_of_lt4_bits _ (gf4RowSum_lt _ r)
    · apply testBit_of_bitN_zero
      rw [write_row_bit b sol hlen r 0]
      have hsatEq := hsat _ (row_eq_mem b r 0 hrlt (by omega))
      unfold satEq at hsatEq
      dsimp only at hsatEq
      rw [hsatEq, fillInternalRow_getD b r hrlt, bitN_eq_shift, Nat.xor_self]
    · apply testBit_of_bitN_zero
      rw [write_row_bit b sol hlen r 1]
      have hsatEq := hsat _ (row_eq_mem b r 1 hrlt (by omega))
      unfold satEq at hsatEq
      dsimp only at hsatEq
      rw [hsatEq, fillInternalRow_getD b r hrlt, bitN_eq_shift, Nat.xor_self]
  · intro c hclt
    apply eq_zero_of_lt4_bits _ (gf4ColSum_lt _ c)
    · apply testBit_of_bitN_zero
      rw [write_col_bit b sol hlen c 0]
      have hsatEq := hsat _ (col_eq_mem b c 0 hclt (by omega))
      unfold satEq at hsatEq
      dsimp only at hsatEq
      rw [hsatEq, fillInternalCol_getD b c hclt, bitN_eq_shift, Nat.xor_self]
    · apply testBit_of_bitN_zero
      rw [write_col_bit b sol hlen c 1]
      have hsatEq := hsat _ (col_eq_mem b c 1 hclt (by omega))
      unfold satEq at hsatEq
      dsimp only at hsatEq
      rw [hsatEq, fillInternalCol_getD b c hclt, bitN_eq_shift, Nat.xor_self]

theorem fill_zero_sums_witness :
    (Board.mk 3 3 true fun r c => r == 1 && c == 1).analysis = true
      ∧ 3 ≤ (Board.mk 3 3 true fun r c => r == 1 && c == 1).rows
      ∧ 3 ≤ (Board.mk 3 3 true fun r c => r == 1 && c == 1).cols
      ∧ solveGF2 (fillEqs (Board.mk 3 3 true fun r c => r == 1 && c == 1))
          (fillVars (Board.mk 3 3 true fun r c => r == 1 && c == 1)).length
          = some [true, true, true, true, true, true, true, true]
      ∧ ((∀ r, r < (Board.mk 3 3 true fun r c => r == 1 && c == 1).rows →
            (fillOuterToZeroGF4 (Board.mk 3 3 true fun r c => r == 1 && c == 1)).gf4RowSum r
              = 0)
        ∧ ∀ c, c < (Board.mk 3 3 true fun r c => r == 1 && c == 1).cols →
            (fillOuterToZeroGF4 (Board.mk 3 3 true fun r c => r == 1 && c == 1)).gf4ColSum c
              = 0) :=
  ⟨rfl, by decide, by decide, by decide,
    fill_zero_sums (Board.mk 3 3 true fun r c => r == 1 && c == 1) rfl (by decide) (by decide)
      [true, true, true, true, true, true, true, true] (by decide)⟩
